import Mathlib

set_option maxHeartbeats 1000000

/-!
Shallow embedding of the OFAC sanctions-list reconciliation engine
(`ofac/ofac.py` and `ofac/historical_recon.py`).

The source manipulates pandas dataframes whose date columns hold ISO
`YYYY-MM-DD` strings; all date comparisons in the source are python string
comparisons, which on zero-padded ISO dates coincide with the lexicographic
order on the (year, month, day) triple.  We model a date as that triple.
`pandas.offsets.MonthEnd(1)` rolls a timestamp forward to the nearest
month-end: a date that is not the last day of its month goes to the end of
its own month, and a date that already is a month-end goes to the end of the
following month.  `Date.monthEnd1` reproduces that behaviour, including
pandas' Gregorian leap-year rule for February.
-/

structure Date where
  y : Nat
  m : Nat
  d : Nat
deriving DecidableEq

namespace Date

/-- Strict order on dates: python string `<` on ISO dates. -/
def lt (a b : Date) : Prop :=
  a.y < b.y ∨ (a.y = b.y ∧ (a.m < b.m ∨ (a.m = b.m ∧ a.d < b.d)))

/-- Non-strict order on dates: python string `<=` on ISO dates. -/
def le (a b : Date) : Prop :=
  a.y < b.y ∨ (a.y = b.y ∧ (a.m < b.m ∨ (a.m = b.m ∧ a.d ≤ b.d)))

instance (a b : Date) : Decidable (lt a b) := by
  unfold lt; exact inferInstance

instance (a b : Date) : Decidable (le a b) := by
  unfold le; exact inferInstance

theorem le_refl (a : Date) : le a a := by
  obtain ⟨ay, am, ad⟩ := a; simp [le]

theorem lt_irrefl (a : Date) : ¬ lt a a := by
  obtain ⟨ay, am, ad⟩ := a; simp [lt]

theorem le_trans {a b c : Date} (h1 : le a b) (h2 : le b c) : le a c := by
  obtain ⟨ay, am, ad⟩ := a; obtain ⟨by_, bm, bd⟩ := b; obtain ⟨cy, cm, cd⟩ := c
  simp only [le] at h1 h2 ⊢; omega

theorem lt_trans {a b c : Date} (h1 : lt a b) (h2 : lt b c) : lt a c := by
  obtain ⟨ay, am, ad⟩ := a; obtain ⟨by_, bm, bd⟩ := b; obtain ⟨cy, cm, cd⟩ := c
  simp only [lt] at h1 h2 ⊢; omega

theorem le_antisymm {a b : Date} (h1 : le a b) (h2 : le b a) : a = b := by
  obtain ⟨ay, am, ad⟩ := a; obtain ⟨by_, bm, bd⟩ := b
  simp only [le, mk.injEq] at h1 h2 ⊢; omega

theorem le_total (a b : Date) : le a b ∨ le b a := by
  obtain ⟨ay, am, ad⟩ := a; obtain ⟨by_, bm, bd⟩ := b
  simp only [le]; omega

theorem not_lt {a b : Date} : ¬ lt a b ↔ le b a := by
  obtain ⟨ay, am, ad⟩ := a; obtain ⟨by_, bm, bd⟩ := b
  simp only [lt, le]; omega

theorem le_of_lt {a b : Date} (h : lt a b) : le a b := by
  obtain ⟨ay, am, ad⟩ := a; obtain ⟨by_, bm, bd⟩ := b
  simp only [lt, le] at h ⊢; omega

theorem lt_of_le_of_lt {a b c : Date} (h1 : le a b) (h2 : lt b c) : lt a c := by
  obtain ⟨ay, am, ad⟩ := a; obtain ⟨by_, bm, bd⟩ := b; obtain ⟨cy, cm, cd⟩ := c
  simp only [le, lt] at h1 h2 ⊢; omega

theorem lt_of_lt_of_le {a b c : Date} (h1 : lt a b) (h2 : le b c) : lt a c := by
  obtain ⟨ay, am, ad⟩ := a; obtain ⟨by_, bm, bd⟩ := b; obtain ⟨cy, cm, cd⟩ := c
  simp only [le, lt] at h1 h2 ⊢; omega

theorem le_of_eq {a b : Date} (h : a = b) : le a b := h ▸ le_refl a

theorem lt_or_eq_of_le {a b : Date} (h : le a b) : lt a b ∨ a = b := by
  obtain ⟨ay, am, ad⟩ := a; obtain ⟨by_, bm, bd⟩ := b
  simp only [le, lt, mk.injEq] at h ⊢; omega

instance : IsTotal Date le := ⟨le_total⟩

instance : IsTrans Date le := ⟨fun _ _ _ => le_trans⟩

instance : IsRefl Date le := ⟨le_refl⟩

/-- Gregorian leap year, as used by pandas timestamps. -/
def isLeap (y : Nat) : Bool :=
  (y % 4 == 0 && y % 100 != 0) || y % 400 == 0

def daysInMonth (y m : Nat) : Nat :=
  if m = 2 then (if isLeap y then 29 else 28)
  else if m = 4 ∨ m = 6 ∨ m = 9 ∨ m = 11 then 30
  else 31

def monthEndOf (y m : Nat) : Date := ⟨y, m, daysInMonth y m⟩

/-- `pandas.offsets.MonthEnd(1)`: roll forward to the nearest month-end
strictly after the given date. -/
def monthEnd1 (x : Date) : Date :=
  if x.d = daysInMonth x.y x.m then
    (if x.m = 12 then monthEndOf (x.y + 1) 1 else monthEndOf x.y (x.m + 1))
  else monthEndOf x.y x.m

/-- A calendar-valid date. -/
def valid (x : Date) : Prop :=
  1 ≤ x.m ∧ x.m ≤ 12 ∧ 1 ≤ x.d ∧ x.d ≤ daysInMonth x.y x.m

instance (x : Date) : Decidable (valid x) := by
  unfold valid; exact inferInstance

theorem lt_monthEnd1 {x : Date} (h : valid x) : lt x (monthEnd1 x) := by
  obtain ⟨xy, xm, xd⟩ := x
  obtain ⟨h1, h2, h3, h4⟩ := h
  simp only [monthEnd1, monthEndOf]
  by_cases hd : xd = daysInMonth xy xm
  · rw [if_pos hd]
    by_cases hm : xm = 12
    · rw [if_pos hm]; exact Or.inl (Nat.lt_succ_self _)
    · rw [if_neg hm]; exact Or.inr ⟨rfl, Or.inl (Nat.lt_succ_self _)⟩
  · rw [if_neg hd]
    exact Or.inr ⟨rfl, Or.inr ⟨rfl, Nat.lt_of_le_of_ne h4 hd⟩⟩

end Date

/-!
Observation rows and tracked-list rows.  `P` is the opaque payload type: all
descriptive columns of an observation other than `Ent_num`, `Country` and the
three tracking columns (`Rep_date`, `add_date`, `removal_date`).  The pandas
duplicate key `dedup_cols` (all columns except the tracking columns) is then
exactly `(ent, country, payload)`.
-/

/-- One row of a snapshot before it is tagged with dates
(`Ent_num`, `Country`, payload). -/
structure Obs (P : Type) where
  ent : Nat
  country : String
  payload : P
deriving DecidableEq

/-- One row of `full_data` / of the persisted tracked list: all observation
columns plus `Rep_date`, `add_date`, `removal_date` (nullable). -/
structure Row (P : Type) where
  ent : Nat
  country : String
  payload : P
  rep_date : Date
  add_date : Date
  removal_date : Option Date
deriving DecidableEq

/-- The pandas `drop_duplicates` subset `['Ent_num', 'Country', ...payload]`
(all columns except `Rep_date`, `add_date`, `removal_date`). -/
def key3 {P : Type} (r : Row P) : Nat × String × P :=
  (r.ent, r.country, r.payload)

/-- `drop_duplicates(subset = k, keep = 'first')` with an accumulator of
already-seen keys. -/
def dedupAux {α κ : Type} [DecidableEq κ] (k : α → κ) : List α → List κ → List α
  | [], _ => []
  | a :: t, seen =>
      if k a ∈ seen then dedupAux k t seen else a :: dedupAux k t (k a :: seen)

/-- `drop_duplicates(subset = k, keep = 'first')`. -/
def dedupBy {α κ : Type} [DecidableEq κ] (k : α → κ) (l : List α) : List α :=
  dedupAux k l []

/-- The set of keys seen after scanning `l` (in first-seen order, newest
first), used to reason about `dedupAux` on appended lists. -/
def seenAfter {α κ : Type} [DecidableEq κ] (k : α → κ) : List α → List κ → List κ
  | [], seen => seen
  | a :: t, seen =>
      if k a ∈ seen then seenAfter k t seen else seenAfter k t (k a :: seen)

/-- Binary max in date order (pandas `max` aggregation on ISO strings). -/
def maxD (a b : Date) : Date := if Date.lt a b then b else a

/-- Binary min in date order (pandas `min` aggregation on ISO strings). -/
def minD (a b : Date) : Date := if Date.lt b a then b else a

/-- Max of a list of dates (defined on the nonempty lists the source feeds
it; the `[]` value is never used). -/
def maxList : List Date → Date
  | [] => ⟨0, 0, 0⟩
  | a :: t => t.foldl maxD a

/-- Min of a list of dates. -/
def minList : List Date → Date
  | [] => ⟨0, 0, 0⟩
  | a :: t => t.foldl minD a

/-- The `Rep_date`s of the rows of `l` whose `(Ent_num, Country)` equals
`(e, c)` — the group the pandas `groupby(['Ent_num', 'Country'])['Rep_date']`
aggregations act on. -/
def repsOf {P : Type} (l : List (Row P)) (e : Nat) (c : String) : List Date :=
  (l.filter (fun r => decide (r.ent = e ∧ r.country = c))).map (fun r => r.rep_date)

/-- `groupby(['Ent_num','Country'])['Rep_date'].agg('max')` — the `last_date`
column. -/
def lastDate {P : Type} (l : List (Row P)) (e : Nat) (c : String) : Date :=
  maxList (repsOf l e c)

/-- `groupby(['Ent_num','Country'])['Rep_date'].agg('min')` — the historical
reconciler's `add_date` column. -/
def firstSeen {P : Type} (l : List (Row P)) (e : Nat) (c : String) : Date :=
  minList (repsOf l e c)

/-!  The Incremental Reconciler: `OFACProcessor.update_ofac_list`.  -/

/-- Tag the fresh snapshot with `Rep_date = add_date = today`,
`removal_date = NA` (lines 152, 169-170 of `ofac.py`). -/
def tagCurrent {P : Type} (cur : List (Obs P)) (today : Date) : List (Row P) :=
  cur.map (fun o => ⟨o.ent, o.country, o.payload, today, today, none⟩)

/-- `full_data = pd.concat([existing_data, current_data])`. -/
def fullRows {P : Type} [DecidableEq P] (ex : List (Row P)) (cur : List (Obs P))
    (today : Date) : List (Row P) :=
  ex ++ tagCurrent cur today

/-- `original_add_dates`: first `add_date` per `(Ent_num, Country)` key of the
existing tracked list, looked up by a left merge (lines 180-181, 201-206). -/
def originalAdd {P : Type} (ex : List (Row P)) (e : Nat) (c : String) : Option Date :=
  (ex.find? (fun x => decide (x.ent = e ∧ x.country = c))).map (fun x => x.add_date)

/-- The inner `np.where` of the removal update (lines 227-231): month-end
after the last appearance, replaced by today when that month-end is in the
future. -/
def clampMonthEnd (last today : Date) : Date :=
  if Date.lt today (Date.monthEnd1 last) then today else Date.monthEnd1 last

/-- Per-row update applied to each dedup survivor: force `add_date` back to
the original one where it exists (lines 209-213) and apply the removal rule
(lines 225-233). -/
def reconRowInc {P : Type} [DecidableEq P] (full ex : List (Row P)) (today : Date)
    (r : Row P) : Row P :=
  let last := lastDate full r.ent r.country
  let add := match originalAdd ex r.ent r.country with
    | some a => a
    | none => r.add_date
  let rem := if Date.lt last today ∧ r.removal_date = none
    then some (clampMonthEnd last today)
    else r.removal_date
  ⟨r.ent, r.country, r.payload, r.rep_date, add, rem⟩

/-- `update_ofac_list` (lines 156-238), with the downloaded snapshot, the
persisted tracked list and the processor's current date made explicit
arguments: concat, dedup on all non-tracking columns keeping the first
occurrence, then per-row add/removal bookkeeping. -/
def updateOfacList {P : Type} [DecidableEq P] (ex : List (Row P)) (cur : List (Obs P))
    (today : Date) : List (Row P) :=
  (dedupBy key3 (fullRows ex cur today)).map
    (reconRowInc (fullRows ex cur today) ex today)

/-!  The Historical Reconciler: `reconcile_historical_data`.  -/

/-- The rows contributed by one snapshot `(report date, observations)`.  A
historical snapshot file carries no `add_date`/`removal_date` columns; after
`pd.concat` they are absent from `dedup_cols` either way, and both fields are
overwritten by the reconciliation map, so we tag them like a fresh download. -/
def snapRows {P : Type} (s : Date × List (Obs P)) : List (Row P) :=
  tagCurrent s.2 s.1

/-- `full_data = pd.concat(dfs)` over the snapshot files, in file order. -/
def fullHist {P : Type} : List (Date × List (Obs P)) → List (Row P)
  | [] => []
  | s :: t => snapRows s ++ fullHist t

/-- Last element of a list of dates (`files[-1]`); the source files are
sorted by name, which embeds the report date. -/
def lastOf : List Date → Date
  | [] => ⟨0, 0, 0⟩
  | [a] => a
  | _ :: b :: t => lastOf (b :: t)

/-- `latest_date`: the report date carried by the final snapshot file. -/
def latestOf {P : Type} (snaps : List (Date × List (Obs P))) : Date :=
  lastOf (snaps.map Prod.fst)

/-- Per-row map of the historical reconciler: `add_date` = min group date,
`removal_date` = month-end after the last appearance when the key is absent
from the final snapshot (lines 23-43 of `historical_recon.py`). -/
def reconRowHist {P : Type} [DecidableEq P] (full : List (Row P)) (latest : Date)
    (r : Row P) : Row P :=
  let add := firstSeen full r.ent r.country
  let last := lastDate full r.ent r.country
  let rem := if Date.lt last latest then some (Date.monthEnd1 last) else none
  ⟨r.ent, r.country, r.payload, r.rep_date, add, rem⟩

/-- `reconcile_historical_data` (lines 10-48), with the list of snapshot
tables (each tagged with its report date, in file order) made an explicit
argument. -/
def reconcileHistorical {P : Type} [DecidableEq P]
    (snaps : List (Date × List (Obs P))) : List (Row P) :=
  (dedupBy key3 (fullHist snaps)).map
    (reconRowHist (fullHist snaps) (latestOf snaps))

/-- Feeding the snapshots one at a time to the Incremental Reconciler,
seeded from an empty tracked list, each run's reference date being that
snapshot's report date (claim C4's right-hand side). -/
def iterIncremental {P : Type} [DecidableEq P]
    (snaps : List (Date × List (Obs P))) : List (Row P) :=
  snaps.foldl (fun acc s => updateOfacList acc s.2 s.1) []

/-- The `(entity, country, add_date, removal_date)` lifecycle view of a
tracked list, as a set of distinct tuples. -/
def lifecycles {P : Type} (rows : List (Row P)) : List (Nat × String × Date × Option Date) :=
  dedupBy id (rows.map (fun r => (r.ent, r.country, r.add_date, r.removal_date)))

/-!  The Panel Builder: `create_panel` (identical in `ofac.py` lines 240-350
and `historical_recon.py` lines 50-124).  -/

/-- One row of `base_records`: the
`(Ent_num, Country, add_date, removal_date)` projection. -/
structure BaseRec where
  ent : Nat
  country : String
  add_date : Date
  removal_date : Option Date
deriving DecidableEq

/-- Projection of a tracked row onto the `base_records` columns. -/
def toBase {P : Type} (r : Row P) : BaseRec :=
  ⟨r.ent, r.country, r.add_date, r.removal_date⟩

/-- `base_records = data[[...]].drop_duplicates()`. -/
def baseRecords {P : Type} (data : List (Row P)) : List BaseRec :=
  dedupBy id (data.map toBase)

def wbgLabel : String := "West Bank and Gaza"

def undeterminedLabel : String := "undetermined"

def dashMark : String := "-"

def regionMark : String := "Region"

/-- `wb_g`: the territory-name variants collapsed into `wbgLabel`. -/
def wbgVariants : List String :=
  ["West Bank", "Region: Gaza", "Region: West Bank", "Palestinian"]

/-- `base_records['Country'].replace(wb_g, 'West Bank and Gaza')`. -/
def normalizeCountry (c : String) : String :=
  if c ∈ wbgVariants then wbgLabel else c

/-- Python `str.startswith` on real (non-NaN) strings. -/
def strStartsWith (s p : String) : Bool :=
  p.data.isPrefixOf s.data

/-- The special-case filter of lines 270-274: country starts with `'-'`,
starts with `'Region'`, or equals `'undetermined'` (checked after the
variant replacement). -/
def isSpecialCountry (c : String) : Bool :=
  strStartsWith c dashMark || strStartsWith c regionMark || c == undeterminedLabel

/-- `base_records` after the variant replacement and the special-case
filter: the record list every panel count is taken from. -/
def panelBase {P : Type} (data : List (Row P)) : List BaseRec :=
  ((baseRecords data).map (fun b => { b with country := normalizeCountry b.country })).filter
    (fun b => ! isSpecialCountry b.country)

/-- `dates_df`: `sorted(data['Rep_date'].unique())` — the panel's date grid. -/
def panelDates {P : Type} (data : List (Row P)) : List Date :=
  List.insertionSort Date.le (dedupBy id (data.map (fun r => r.rep_date)))

/-- `countries_df`: the distinct normalized surviving countries. -/
def panelCountries {P : Type} (data : List (Row P)) : List String :=
  dedupBy id ((panelBase data).map (fun b => b.country))

/-- `first_date = dates_df['Date'].min()`. -/
def firstDate {P : Type} (data : List (Row P)) : Date :=
  minList (panelDates data)

/-- `entity_counts` at one `(Country, Date)` cell: the number of base
records whose `add_date` is that date (0 where the left merge finds no
group). -/
def ecOf (base : List BaseRec) (c : String) (t : Date) : Nat :=
  (base.filter (fun b => decide (b.country = c ∧ b.add_date = t))).length

/-- `removals` at one `(Country, Date)` cell: the number of base records
whose `removal_date` is that date. -/
def rmOf (base : List BaseRec) (c : String) (t : Date) : Nat :=
  (base.filter (fun b => decide (b.country = c ∧ b.removal_date = some t))).length

/-- `additions`: `entity_counts` forced to 0 at the first grid date. -/
def addOf (base : List BaseRec) (first : Date) (c : String) (t : Date) : Nat :=
  if t = first then 0 else ecOf base c t

/-- `change = additions - removals` (integer-valued). -/
def chOf (base : List BaseRec) (first : Date) (c : String) (t : Date) : Int :=
  (addOf base first c t : Int) - (rmOf base c t : Int)

/-- `temp_col`: `entity_counts` at the first grid date, `change` elsewhere. -/
def tmpOf (base : List BaseRec) (first : Date) (c : String) (t : Date) : Int :=
  if t = first then (ecOf base c t : Int) else chOf base first c t

/-- `levels`: the per-country cumulative sum of `temp_col` over the date
grid in ascending order; `lvlOf base dates c i` is the value at the
`i`-th grid date. -/
def lvlOf (base : List BaseRec) (dates : List Date) (c : String) (i : Nat) : Int :=
  (((dates.take (i + 1)).map (tmpOf base (minList dates) c))).sum

/-- `entity_counts` of `create_panel data` at `(c, t)`. -/
def entityCountsAt {P : Type} (data : List (Row P)) (c : String) (t : Date) : Nat :=
  ecOf (panelBase data) c t

/-- `additions` of `create_panel data` at `(c, t)`. -/
def additionsAt {P : Type} (data : List (Row P)) (c : String) (t : Date) : Nat :=
  addOf (panelBase data) (firstDate data) c t

/-- `removals` of `create_panel data` at `(c, t)`. -/
def removalsAt {P : Type} (data : List (Row P)) (c : String) (t : Date) : Nat :=
  rmOf (panelBase data) c t

/-- `change` of `create_panel data` at `(c, t)`. -/
def changeAt {P : Type} (data : List (Row P)) (c : String) (t : Date) : Int :=
  chOf (panelBase data) (firstDate data) c t

/-- `levels` of `create_panel data` for country `c` at the `i`-th grid
date. -/
def levelsAt {P : Type} (data : List (Row P)) (c : String) (i : Nat) : Int :=
  lvlOf (panelBase data) (panelDates data) c i

/-- Null out the `removal_date` of a base record when it matches no grid
date (used to state claim C10: such a removal is invisible to the panel). -/
def censorBase (dates : List Date) (b : BaseRec) : BaseRec :=
  match b.removal_date with
  | some r => if r ∈ dates then b else { b with removal_date := none }
  | none => b

/-!  Snapshot ingestion: `_read_clean_csv` (`ofac.py` lines 67-86).

A raw CSV row is its list of textual fields; `pd.read_csv(url, names=cols)`
pads a row shorter than the schema with NaN on the right, and parses an
empty field as NaN.  `fieldAt row i` is therefore the (optional) value of
the `i`-th schema column.  The cleaning step keeps the rows whose second
schema column is present and then applies `pd.to_numeric` to `Ent_num`
(column 0): a NaN entity id passes through as NaN, a non-numeric string
raises, failing the whole read.  Numeric literals are modelled as natural
number literals.  -/

def fieldAt (row : List String) (i : Nat) : Option String :=
  match row.get? i with
  | some s => if s = "" then none else some s
  | none => none

/-- The rows surviving `df = df[~pd.isna(df[columns[1]])]`. -/
def keptRows (rows : List (List String)) : List (List String) :=
  rows.filter (fun r => (fieldAt r 1).isSome)

/-- Parse a nonempty all-digit string as a natural number (the model's
numeric-literal domain for `pd.to_numeric`). -/
def natFromStr (s : String) : Option Nat :=
  if s.data ≠ [] ∧ s.data.all Char.isDigit then
    some (s.data.foldl (fun a c => a * 10 + (c.toNat - 48)) 0)
  else none

/-- `pd.to_numeric` on one entity-id field: NaN stays NaN, a numeric
literal parses, anything else raises. -/
def parseEnt (r : List String) : Except String (Option Nat) :=
  match fieldAt r 0 with
  | none => Except.ok none
  | some s =>
      match natFromStr s with
      | some n => Except.ok (some n)
      | none => Except.error s

/-- `pd.to_numeric` applied down the `Ent_num` column: the whole read fails
on the first non-numeric entity id, otherwise every row is returned with its
parsed id. -/
def collectRows : List (List String) → Except String (List (Option Nat × List String))
  | [] => Except.ok []
  | r :: t =>
      match parseEnt r with
      | Except.error e => Except.error e
      | Except.ok v =>
          match collectRows t with
          | Except.error e => Except.error e
          | Except.ok rest => Except.ok ((v, r) :: rest)

/-- `_read_clean_csv`: keep the rows whose second column is present, then
parse every kept row's entity id, failing the whole read on a non-numeric
one.  The result carries no rejection count or report. -/
def readCleanCsv (rows : List (List String)) :
    Except String (List (Option Nat × List String)) :=
  collectRows (keptRows rows)

/-!  Concrete inputs used by witnesses and counterexamples.  -/

/-- Country label used by the concrete examples. -/
def cX : String := "X"

/-- Country label used by the concrete examples. -/
def cY : String := "Y"

/-- A well-formed two-snapshot tracked list: entity 1 added at the first
grid date and still active, entity 2 added and removed at the second. -/
def dataPanelW : List (Row Nat) :=
  [⟨1, "X", 0, ⟨2021, 1, 31⟩, ⟨2021, 1, 31⟩, none⟩,
   ⟨2, "X", 0, ⟨2021, 2, 28⟩, ⟨2021, 2, 28⟩, some ⟨2021, 2, 28⟩⟩]

/-- A tracked list whose only removal carries an `add_date` outside the
panel's date grid: `levels` for country `X` goes negative. -/
def dataC6x : List (Row Nat) :=
  [⟨1, "X", 0, ⟨2021, 1, 31⟩, ⟨2020, 5, 5⟩, some ⟨2021, 2, 28⟩⟩,
   ⟨2, "X", 0, ⟨2021, 2, 28⟩, ⟨2020, 6, 6⟩, none⟩]

/-- A prior tracked list whose key was last reported mid-month
(2021-01-15). -/
def exC2x : List (Row Nat) :=
  [⟨1, "X", 0, ⟨2021, 1, 15⟩, ⟨2021, 1, 15⟩, none⟩]

/-- Two historical snapshots; the key of the first is last observed
mid-month (2021-01-15). -/
def snapsC3x : List (Date × List (Obs Nat)) :=
  [(⟨2021, 1, 15⟩, [⟨1, "X", 0⟩]), (⟨2021, 3, 31⟩, [⟨2, "Y", 0⟩])]

/-- Entity 1 appears with an unchanged payload in the first two snapshots
and is gone from the third: the tracked list only remembers its first
sighting. -/
def snapsC4x : List (Date × List (Obs Nat)) :=
  [(⟨2021, 1, 31⟩, [⟨1, "X", 0⟩]),
   (⟨2021, 2, 28⟩, [⟨1, "X", 0⟩]),
   (⟨2021, 3, 31⟩, [⟨2, "Y", 0⟩])]

/-- Two snapshots with fresh payload variants every time a key appears, no
reappearance after an absence, and month-end report dates: the hypotheses of
the amended C4. -/
def snapsC4w : List (Date × List (Obs Nat)) :=
  [(⟨2021, 1, 31⟩, [⟨1, "X", 0⟩, ⟨3, "Z", 5⟩]),
   (⟨2021, 2, 28⟩, [⟨1, "X", 1⟩, ⟨2, "Y", 0⟩])]

/-- A tracked list with a finalized removal whose key reappears in the
fresh snapshot. -/
def exC7x : List (Row Nat) :=
  [⟨1, "X", 0, ⟨2021, 1, 31⟩, ⟨2021, 1, 31⟩, some ⟨2021, 2, 28⟩⟩]

/-- The reappearing observation for `exC7x`. -/
def curC7x : List (Obs Nat) :=
  [⟨1, "X", 0⟩]

/-- A well-formed prior tracked list for the C7 witness: one active key,
one removed key that does not reappear. -/
def exC7w : List (Row Nat) :=
  [⟨1, "X", 0, ⟨2021, 1, 31⟩, ⟨2021, 1, 31⟩, none⟩,
   ⟨2, "Y", 0, ⟨2021, 1, 31⟩, ⟨2021, 1, 31⟩, some ⟨2021, 2, 28⟩⟩]

/-- Fresh snapshot for the C7 witness: the active key reappears with a new
payload variant, a new key arrives. -/
def curC7w : List (Obs Nat) :=
  [⟨1, "X", 1⟩, ⟨3, "Z", 0⟩]

/-- Prior tracked list for the C1 witness: one key tracked since
2021-01-31. -/
def exC1w : List (Row Nat) :=
  [⟨1, "X", 0, ⟨2021, 1, 31⟩, ⟨2021, 1, 31⟩, none⟩]

/-- Fresh snapshot for the C1 witness: the tracked key reports a changed
payload variant, and a brand-new key appears. -/
def curC1w : List (Obs Nat) :=
  [⟨1, "X", 7⟩, ⟨2, "Y", 0⟩]

/-- A raw CSV batch with one well-formed row and one row missing its second
schema column. -/
def rowsC9x : List (List String) :=
  [["1", "Alice"], ["2"]]


/-- A non-numeric entity id. -/
def sBad : String := "abc"

/-- A raw CSV row with a non-numeric entity id but a present second column. -/
def rowBad : List String := [sBad, "Bob"]

/-- A raw CSV row with fewer fields than the schema, missing its second
column. -/
def rowShort : List String := ["2"]

/-- A raw CSV batch with one well-formed row, one short row and one
non-numeric entity id. -/
def rowsC9w : List (List String) :=
  [["1", "Alice"], rowShort, rowBad]

/-- The end of the month following the given date, written from the claims'
words ("the last day of the month following the last-observed report date"),
to be compared with the code's `Date.monthEnd1`. -/
def specMonthFollowingEnd (x : Date) : Date :=
  if x.m = 12 then Date.monthEndOf (x.y + 1) 1 else Date.monthEndOf x.y (x.m + 1)

/-- Default snapshot used by positional lookups. -/
def snapDflt {P : Type} : Date × List (Obs P) := (⟨0, 0, 0⟩, [])

/-- The `(entity, country)` key appears in the snapshot. -/
def keyInSnap {P : Type} (e : Nat) (c : String) (s : Date × List (Obs P)) : Prop :=
  ∃ o ∈ s.2, o.ent = e ∧ o.country = c

instance {P : Type} (e : Nat) (c : String) (s : Date × List (Obs P)) :
    Decidable (keyInSnap e c s) := by
  unfold keyInSnap; exact inferInstance

/-- Every key observed in snapshot `i` that is present in snapshot `l` is
also present in snapshot `j`. -/
def convexAt {P : Type} (snaps : List (Date × List (Obs P))) (i j l : Nat) : Prop :=
  ∀ o ∈ (snaps.getD i snapDflt).2,
    keyInSnap o.ent o.country (snaps.getD l snapDflt) →
    keyInSnap o.ent o.country (snaps.getD j snapDflt)

instance {P : Type} (snaps : List (Date × List (Obs P))) (i j l : Nat) :
    Decidable (convexAt snaps i j l) := by
  unfold convexAt; exact inferInstance

/-- No key reappears after an absence: whenever a key is present in
snapshots `i` and `l`, it is present in every snapshot in between. -/
def convexAppearance {P : Type} (snaps : List (Date × List (Obs P))) : Prop :=
  ∀ i, i < snaps.length → ∀ j, j < snaps.length → ∀ l, l < snaps.length →
    i ≤ j → j ≤ l → convexAt snaps i j l

instance {P : Type} (snaps : List (Date × List (Obs P))) :
    Decidable (convexAppearance snaps) := by
  unfold convexAppearance; exact inferInstance

/-- Successive report dates strictly increase and leave no room for the
removal clamp: the month-end after a date is at most the next date. -/
def stepOk (a b : Date) : Prop :=
  Date.lt a b ∧ Date.le (Date.monthEnd1 a) b

instance (a b : Date) : Decidable (stepOk a b) := by
  unfold stepOk; exact inferInstance

instance : IsTrans Date stepOk :=
  ⟨fun _ _ _ h1 h2 => ⟨Date.lt_trans h1.1 h2.1, Date.le_trans h1.2 (Date.le_of_lt h2.1)⟩⟩

/-!  Helper lemmas: deduplication.  -/

theorem mem_of_mem_dedupAux {α κ : Type} [DecidableEq κ] {k : α → κ} {x : α} :
    ∀ {l : List α} {seen : List κ}, x ∈ dedupAux k l seen → x ∈ l
  | [], _, h => by simp [dedupAux] at h
  | a :: t, seen, h => by
      by_cases ha : k a ∈ seen
      · rw [dedupAux, if_pos ha] at h
        exact List.mem_cons_of_mem a (mem_of_mem_dedupAux h)
      · rw [dedupAux, if_neg ha] at h
        rcases List.mem_cons.mp h with h1 | h2
        · exact h1 ▸ List.mem_cons_self x t
        · exact List.mem_cons_of_mem a (mem_of_mem_dedupAux h2)

theorem key_not_seen_of_mem_dedupAux {α κ : Type} [DecidableEq κ] {k : α → κ} {x : α} :
    ∀ {l : List α} {seen : List κ}, x ∈ dedupAux k l seen → k x ∉ seen
  | [], _, h => by simp [dedupAux] at h
  | a :: t, seen, h => by
      by_cases ha : k a ∈ seen
      · rw [dedupAux, if_pos ha] at h
        exact key_not_seen_of_mem_dedupAux h
      · rw [dedupAux, if_neg ha] at h
        rcases List.mem_cons.mp h with h1 | h2
        · exact h1 ▸ ha
        · intro hk
          exact key_not_seen_of_mem_dedupAux h2 (List.mem_cons_of_mem _ hk)

theorem nodup_keys_dedupAux {α κ : Type} [DecidableEq κ] {k : α → κ} :
    ∀ {l : List α} {seen : List κ}, ((dedupAux k l seen).map k).Nodup
  | [], _ => by simp [dedupAux]
  | a :: t, seen => by
      by_cases ha : k a ∈ seen
      · rw [dedupAux, if_pos ha]
        exact nodup_keys_dedupAux
      · rw [dedupAux, if_neg ha]
        refine List.Nodup.cons ?_ nodup_keys_dedupAux
        intro hmem
        rcases List.mem_map.mp hmem with ⟨x, hx, hkx⟩
        exact key_not_seen_of_mem_dedupAux hx (hkx ▸ List.mem_cons_self (k a) seen)

theorem nodup_dedupBy_id {α : Type} [DecidableEq α] (l : List α) :
    (dedupBy id l).Nodup := by
  have h := @nodup_keys_dedupAux α α _ id l []
  simpa using h

theorem dedupAux_eq_self {α κ : Type} [DecidableEq κ] {k : α → κ} :
    ∀ {l : List α} {seen : List κ}, (l.map k).Nodup → (∀ a ∈ l, k a ∉ seen) →
      dedupAux k l seen = l
  | [], _, _, _ => rfl
  | a :: t, seen, hnd, hs => by
      have ha : k a ∉ seen := hs a (List.mem_cons_self a t)
      rw [dedupAux, if_neg ha]
      have hnd' : (t.map k).Nodup := (List.nodup_cons.mp (by simpa using hnd)).2
      refine congrArg (a :: ·) (dedupAux_eq_self hnd' ?_)
      intro x hx hmem
      rcases List.mem_cons.mp hmem with h1 | h2
      · have : k a ∉ t.map k := (List.nodup_cons.mp (by simpa using hnd)).1
        exact this (h1 ▸ List.mem_map_of_mem k hx)
      · exact hs x (List.mem_cons_of_mem a hx) h2

theorem dedupBy_eq_self {α κ : Type} [DecidableEq κ] {k : α → κ} {l : List α}
    (h : (l.map k).Nodup) : dedupBy k l = l :=
  dedupAux_eq_self h (by simp)

theorem mem_of_mem_dedupBy {α κ : Type} [DecidableEq κ] {k : α → κ} {x : α}
    {l : List α} (h : x ∈ dedupBy k l) : x ∈ l :=
  mem_of_mem_dedupAux h

/-!  Helper lemmas: list min/max in date order.  -/

theorem maxD_choice (a b : Date) : maxD a b = a ∨ maxD a b = b := by
  unfold maxD; by_cases h : Date.lt a b <;> simp [h]

theorem le_maxD_left (a b : Date) : Date.le a (maxD a b) := by
  unfold maxD
  by_cases h : Date.lt a b
  · rw [if_pos h]; exact Date.le_of_lt h
  · rw [if_neg h]; exact Date.le_refl a

theorem le_maxD_right (a b : Date) : Date.le b (maxD a b) := by
  unfold maxD
  by_cases h : Date.lt a b
  · rw [if_pos h]; exact Date.le_refl b
  · rw [if_neg h]; exact Date.not_lt.mp h

theorem minD_choice (a b : Date) : minD a b = a ∨ minD a b = b := by
  unfold minD; by_cases h : Date.lt b a <;> simp [h]

theorem minD_le_left (a b : Date) : Date.le (minD a b) a := by
  unfold minD
  by_cases h : Date.lt b a
  · rw [if_pos h]; exact Date.le_of_lt h
  · rw [if_neg h]; exact Date.le_refl a

theorem minD_le_right (a b : Date) : Date.le (minD a b) b := by
  unfold minD
  by_cases h : Date.lt b a
  · rw [if_pos h]; exact Date.le_refl b
  · rw [if_neg h]; exact Date.not_lt.mp h

theorem foldl_maxD_mem : ∀ (t : List Date) (a : Date), t.foldl maxD a ∈ a :: t
  | [], a => List.mem_cons_self a []
  | b :: t, a => by
      rw [List.foldl_cons]
      rcases List.mem_cons.mp (foldl_maxD_mem t (maxD a b)) with h2 | h2
      · rcases maxD_choice a b with h | h
        · rw [h2, h]; exact List.mem_cons_self a (b :: t)
        · rw [h2, h]; exact List.mem_cons_of_mem a (List.mem_cons_self b t)
      · exact List.mem_cons_of_mem a (List.mem_cons_of_mem b h2)

theorem le_foldl_maxD_init : ∀ (t : List Date) (a : Date), Date.le a (t.foldl maxD a)
  | [], a => Date.le_refl a
  | b :: t, a => by
      rw [List.foldl_cons]
      exact Date.le_trans (le_maxD_left a b) (le_foldl_maxD_init t (maxD a b))

theorem le_foldl_maxD_mem : ∀ (t : List Date) (a y : Date), y ∈ t →
    Date.le y (t.foldl maxD a)
  | [], _, _, h => absurd h (List.not_mem_nil _)
  | b :: t, a, y, h => by
      rw [List.foldl_cons]
      rcases List.mem_cons.mp h with h1 | h2
      · rw [h1]
        exact Date.le_trans (le_maxD_right a b) (le_foldl_maxD_init t (maxD a b))
      · exact le_foldl_maxD_mem t (maxD a b) y h2

theorem maxList_mem {l : List Date} (h : l ≠ []) : maxList l ∈ l := by
  match l with
  | [] => exact absurd rfl h
  | a :: t => exact foldl_maxD_mem t a

theorem le_maxList {l : List Date} {y : Date} (h : y ∈ l) : Date.le y (maxList l) := by
  match l with
  | [] => exact absurd h (List.not_mem_nil _)
  | a :: t =>
      rcases List.mem_cons.mp h with h1 | h2
      · exact h1 ▸ le_foldl_maxD_init t a
      · exact le_foldl_maxD_mem t a y h2

theorem maxList_eq_of {l : List Date} {d : Date} (hd : d ∈ l)
    (hub : ∀ y ∈ l, Date.le y d) : maxList l = d := by
  have hne : l ≠ [] := by intro h; rw [h] at hd; exact (List.not_mem_nil d) hd
  exact Date.le_antisymm (hub _ (maxList_mem hne)) (le_maxList hd)

theorem foldl_minD_mem : ∀ (t : List Date) (a : Date), t.foldl minD a ∈ a :: t
  | [], a => List.mem_cons_self a []
  | b :: t, a => by
      rw [List.foldl_cons]
      rcases List.mem_cons.mp (foldl_minD_mem t (minD a b)) with h2 | h2
      · rcases minD_choice a b with h | h
        · rw [h2, h]; exact List.mem_cons_self a (b :: t)
        · rw [h2, h]; exact List.mem_cons_of_mem a (List.mem_cons_self b t)
      · exact List.mem_cons_of_mem a (List.mem_cons_of_mem b h2)

theorem foldl_minD_init_le : ∀ (t : List Date) (a : Date), Date.le (t.foldl minD a) a
  | [], a => Date.le_refl a
  | b :: t, a => by
      rw [List.foldl_cons]
      exact Date.le_trans (foldl_minD_init_le t (minD a b)) (minD_le_left a b)

theorem foldl_minD_mem_le : ∀ (t : List Date) (a y : Date), y ∈ t →
    Date.le (t.foldl minD a) y
  | [], _, _, h => absurd h (List.not_mem_nil _)
  | b :: t, a, y, h => by
      rw [List.foldl_cons]
      rcases List.mem_cons.mp h with h1 | h2
      · rw [h1]
        exact Date.le_trans (foldl_minD_init_le t (minD a b)) (minD_le_right a b)
      · exact foldl_minD_mem_le t (minD a b) y h2

theorem minList_mem {l : List Date} (h : l ≠ []) : minList l ∈ l := by
  match l with
  | [] => exact absurd rfl h
  | a :: t => exact foldl_minD_mem t a

theorem minList_le {l : List Date} {y : Date} (h : y ∈ l) : Date.le (minList l) y := by
  match l with
  | [] => exact absurd h (List.not_mem_nil _)
  | a :: t =>
      rcases List.mem_cons.mp h with h1 | h2
      · exact h1 ▸ foldl_minD_init_le t a
      · exact foldl_minD_mem_le t a y h2

theorem minList_eq_of {l : List Date} {d : Date} (hd : d ∈ l)
    (hlb : ∀ y ∈ l, Date.le d y) : minList l = d := by
  have hne : l ≠ [] := by intro h; rw [h] at hd; exact (List.not_mem_nil d) hd
  exact Date.le_antisymm (minList_le hd) (hlb _ (minList_mem hne))

/-!  Helper lemmas: report-date groups.  -/

theorem mem_repsOf_iff {P : Type} {l : List (Row P)} {e : Nat} {c : String} {d : Date} :
    d ∈ repsOf l e c ↔ ∃ r ∈ l, r.ent = e ∧ r.country = c ∧ r.rep_date = d := by
  unfold repsOf
  simp only [List.mem_map, List.mem_filter, decide_eq_true_eq]
  constructor
  · rintro ⟨r, ⟨hr, he, hc⟩, hd⟩
    exact ⟨r, hr, he, hc, hd⟩
  · rintro ⟨r, hr, he, hc, hd⟩
    exact ⟨r, ⟨hr, he, hc⟩, hd⟩

theorem rep_mem_repsOf {P : Type} {l : List (Row P)} {r : Row P} (h : r ∈ l) :
    r.rep_date ∈ repsOf l r.ent r.country :=
  mem_repsOf_iff.mpr ⟨r, h, rfl, rfl, rfl⟩

theorem repsOf_append {P : Type} (xs ys : List (Row P)) (e : Nat) (c : String) :
    repsOf (xs ++ ys) e c = repsOf xs e c ++ repsOf ys e c := by
  unfold repsOf
  rw [List.filter_append, List.map_append]

/-- `repsOf` ignores a per-row map that preserves entity, country and
report date. -/
theorem repsOf_map {P : Type} (l : List (Row P)) (f : Row P → Row P)
    (hf : ∀ r, (f r).ent = r.ent ∧ (f r).country = r.country ∧ (f r).rep_date = r.rep_date)
    (e : Nat) (c : String) : repsOf (l.map f) e c = repsOf l e c := by
  unfold repsOf
  rw [List.filter_map, List.map_map]
  have h1 : List.filter ((fun r => decide (r.ent = e ∧ r.country = c)) ∘ f) l
      = List.filter (fun r => decide (r.ent = e ∧ r.country = c)) l := by
    apply List.filter_congr
    intro r _
    simp only [Function.comp_apply, (hf r).1, (hf r).2.1]
  rw [h1]
  apply List.map_congr_left
  intro r _
  simp only [Function.comp_apply, (hf r).2.2]

/-!  Helper lemmas: the panel's date grid.  -/

theorem mem_dedupAux_of_mem {α : Type} [DecidableEq α] {x : α} :
    ∀ {l : List α} {seen : List α}, x ∈ l → x ∈ seen ∨ x ∈ dedupAux id l seen
  | [], _, h => absurd h (List.not_mem_nil _)
  | a :: t, seen, h => by
      by_cases ha : (id a) ∈ seen
      · rw [dedupAux, if_pos ha]
        rcases List.mem_cons.mp h with h1 | h2
        · exact Or.inl (h1 ▸ ha)
        · exact mem_dedupAux_of_mem h2
      · rw [dedupAux, if_neg ha]
        rcases List.mem_cons.mp h with h1 | h2
        · exact Or.inr (h1 ▸ List.mem_cons_self a _)
        · rcases @mem_dedupAux_of_mem α _ x t (id a :: seen) h2 with h3 | h3
          · rcases List.mem_cons.mp h3 with h4 | h5
            · rw [h4]; exact Or.inr (List.mem_cons_self a _)
            · exact Or.inl h5
          · exact Or.inr (List.mem_cons_of_mem a h3)

theorem mem_dedupBy_id_iff {α : Type} [DecidableEq α] {x : α} {l : List α} :
    x ∈ dedupBy id l ↔ x ∈ l := by
  constructor
  · exact mem_of_mem_dedupBy
  · intro h
    rcases @mem_dedupAux_of_mem α _ x l [] h with h1 | h1
    · exact absurd h1 (List.not_mem_nil x)
    · exact h1

theorem panelDates_sorted {P : Type} (data : List (Row P)) :
    List.Sorted Date.le (panelDates data) :=
  List.sorted_insertionSort Date.le _

theorem panelDates_nodup {P : Type} (data : List (Row P)) :
    (panelDates data).Nodup :=
  (List.perm_insertionSort Date.le _).symm.nodup
    (nodup_dedupBy_id (data.map (fun r => r.rep_date)))

theorem mem_panelDates_iff {P : Type} {data : List (Row P)} {x : Date} :
    x ∈ panelDates data ↔ ∃ r ∈ data, r.rep_date = x := by
  unfold panelDates
  rw [(List.perm_insertionSort Date.le _).mem_iff, mem_dedupBy_id_iff, List.mem_map]

/-- The minimum of a nonempty ascending-sorted date list is its head. -/
theorem minList_sorted_getElem {l : List Date} (hs : List.Sorted Date.le l)
    (h : 0 < l.length) : minList l = l[0] := by
  match l with
  | a :: t =>
      refine minList_eq_of (List.mem_cons_self a t) ?_
      intro y hy
      rcases List.mem_cons.mp hy with h1 | h2
      · exact Date.le_of_eq h1.symm
      · exact (List.sorted_cons.mp hs).1 y h2

/-- Along a sorted date grid, an earlier member that is date-below a member
of a prefix lies in that prefix. -/
theorem mem_take_of_le {l : List Date} (hs : List.Sorted Date.le l)
    (hnd : l.Nodup) {x r : Date} {k : Nat} (hx : x ∈ l) (hr : r ∈ l.take k)
    (hle : Date.le x r) : x ∈ l.take k := by
  rcases List.mem_iff_getElem.mp hx with ⟨i, hi, hgi⟩
  have hrl : r ∈ l := List.mem_of_mem_take hr
  rcases List.mem_iff_getElem.mp hrl with ⟨j, hj, hgj⟩
  rcases List.mem_iff_getElem.mp hr with ⟨j2, hj2, hgj2⟩
  have hj2len : j2 < l.length := Nat.lt_of_lt_of_le hj2 (by
    rw [List.length_take]; omega)
  have hgj2' : l[j2] = r := by
    rw [List.getElem_take] at hgj2
    exact hgj2
  have hjj : j = j2 := by
    apply (List.Nodup.getElem_inj_iff hnd).mp
    rw [hgj, hgj2']
  have hij : i ≤ j := by
    by_contra hcon
    have hji : j < i := Nat.lt_of_not_le hcon
    have hfin : (⟨j, hj⟩ : Fin l.length) < ⟨i, hi⟩ := hji
    have := hs.rel_get_of_lt hfin
    simp only [List.get_eq_getElem, hgi, hgj] at this
    have hxr : x = r := Date.le_antisymm hle this
    have : i = j := by
      apply (List.Nodup.getElem_inj_iff hnd).mp
      rw [hgi, hgj, hxr]
    omega
  have hik : i < k := by
    have : j2 < min k l.length := by
      rw [← List.length_take]
      exact hj2
    omega
  exact List.mem_take_iff_getElem.mpr ⟨i, by omega, hgi⟩

/-!  Helper lemmas: panel counting.  -/

theorem countP_or_disjoint {α : Type} (l : List α) (q1 q2 : α → Prop)
    [DecidablePred q1] [DecidablePred q2] (h : ∀ a ∈ l, ¬(q1 a ∧ q2 a)) :
    l.countP (fun a => decide (q1 a ∨ q2 a)) =
      l.countP (fun a => decide (q1 a)) + l.countP (fun a => decide (q2 a)) := by
  induction l with
  | nil => simp
  | cons a t ih =>
      have ht : ∀ x ∈ t, ¬(q1 x ∧ q2 x) := fun x hx => h x (List.mem_cons_of_mem a hx)
      have ha := h a (List.mem_cons_self a t)
      simp only [List.countP_cons, ih ht]
      by_cases h1 : q1 a <;> by_cases h2 : q2 a <;> simp [h1, h2] at ha ⊢ <;> omega

theorem ecOf_eq_countP (base : List BaseRec) (c : String) (t : Date) :
    ecOf base c t = base.countP (fun b => decide (b.country = c ∧ b.add_date = t)) := by
  unfold ecOf
  rw [List.countP_eq_length_filter]

theorem rmOf_eq_countP (base : List BaseRec) (c : String) (t : Date) :
    rmOf base c t = base.countP (fun b => decide (b.country = c ∧ b.removal_date = some t)) := by
  unfold rmOf
  rw [List.countP_eq_length_filter]

/-- Unfolding one step of the cumulative `levels` sum. -/
theorem lvlOf_succ (base : List BaseRec) (dates : List Date) (c : String) (i : Nat)
    (hi : i + 1 < dates.length) :
    lvlOf base dates c (i + 1) =
      lvlOf base dates c i + tmpOf base (minList dates) c dates[i + 1] := by
  unfold lvlOf
  rw [List.take_succ, List.getElem?_eq_getElem hi]
  rw [List.map_append, List.sum_append]
  simp


/-- A base record counted in country `c`'s `entity_counts` at one of the
grid dates `ts`. -/
def addedBy (c : String) (ts : List Date) (b : BaseRec) : Prop :=
  b.country = c ∧ b.add_date ∈ ts

instance (c : String) (ts : List Date) (b : BaseRec) : Decidable (addedBy c ts b) := by
  unfold addedBy; exact inferInstance

/-- A base record counted in country `c`'s `removals` at one of the grid
dates `ts`. -/
def removedBy (c : String) (ts : List Date) (b : BaseRec) : Prop :=
  b.country = c ∧ ∃ r ∈ ts, b.removal_date = some r

instance (c : String) (ts : List Date) (b : BaseRec) : Decidable (removedBy c ts b) := by
  unfold removedBy; exact inferInstance

theorem countP_addedBy_snoc (base : List BaseRec) (c : String) (ts : List Date)
    (d : Date) (hd : d ∉ ts) :
    base.countP (fun b => decide (addedBy c (ts ++ [d]) b)) =
      base.countP (fun b => decide (addedBy c ts b))
        + base.countP (fun b => decide (b.country = c ∧ b.add_date = d)) := by
  have hsame : base.countP (fun b => decide (addedBy c (ts ++ [d]) b))
      = base.countP (fun b => decide (addedBy c ts b ∨ (b.country = c ∧ b.add_date = d))) := by
    apply List.countP_congr
    intro b _
    simp only [decide_eq_true_eq, addedBy, List.mem_append, List.mem_singleton]
    tauto
  rw [hsame]
  apply countP_or_disjoint
  intro b _
  rintro ⟨⟨-, hmem⟩, ⟨-, heq⟩⟩
  exact hd (heq ▸ hmem)

theorem countP_removedBy_snoc (base : List BaseRec) (c : String) (ts : List Date)
    (d : Date) (hd : d ∉ ts) :
    base.countP (fun b => decide (removedBy c (ts ++ [d]) b)) =
      base.countP (fun b => decide (removedBy c ts b))
        + base.countP (fun b => decide (b.country = c ∧ b.removal_date = some d)) := by
  have hsame : base.countP (fun b => decide (removedBy c (ts ++ [d]) b))
      = base.countP (fun b => decide (removedBy c ts b ∨ (b.country = c ∧ b.removal_date = some d))) := by
    apply List.countP_congr
    intro b _
    simp only [decide_eq_true_eq, removedBy, List.mem_append, List.mem_singleton]
    constructor
    · rintro ⟨hc, r, (hr | hr), hrem⟩
      · exact Or.inl ⟨hc, r, hr, hrem⟩
      · exact Or.inr ⟨hc, hr ▸ hrem⟩
    · rintro (⟨hc, r, hr, hrem⟩ | ⟨hc, hrem⟩)
      · exact ⟨hc, r, Or.inl hr, hrem⟩
      · exact ⟨hc, d, Or.inr rfl, hrem⟩
  rw [hsame]
  apply countP_or_disjoint
  intro b _
  rintro ⟨⟨-, r, hr, hrem⟩, ⟨-, heq⟩⟩
  rw [heq] at hrem
  have hrd : d = r := by injection hrem
  exact hd (hrd ▸ hr)

/-- The cumulative `levels` value as a difference of two running counts:
records added at one of the first `i + 1` grid dates, minus records removed
at one of the grid dates in positions `1..i`. -/
theorem lvlOf_eq_counts (base : List BaseRec) (dates : List Date) (c : String)
    (hs : List.Sorted Date.le dates) (hnd : dates.Nodup) :
    ∀ i, i < dates.length →
      lvlOf base dates c i =
        (base.countP (fun b => decide (addedBy c (dates.take (i + 1)) b)) : Int)
          - (base.countP (fun b => decide (removedBy c ((dates.take (i + 1)).drop 1) b)) : Int) := by
  intro i
  induction i with
  | zero =>
      intro h0
      have hd0 : dates.take (0 + 1) = [dates[0]] := by
        rw [List.take_succ, List.getElem?_eq_getElem h0]
        simp
      have hmin : minList dates = dates[0] := minList_sorted_getElem hs h0
      unfold lvlOf
      simp only [hd0]
      simp only [List.map, List.sum_cons, List.sum_nil, List.drop_succ_cons, List.drop_nil]
      rw [hmin]
      unfold tmpOf
      rw [if_pos rfl, ecOf_eq_countP]
      have hcg : base.countP (fun b => decide (addedBy c [dates[0]] b))
          = base.countP (fun b => decide (b.country = c ∧ b.add_date = dates[0])) := by
        apply List.countP_congr
        intro b _
        simp [addedBy]
      have hz : base.countP (fun b => decide (removedBy c [] b)) = 0 := by
        apply List.countP_eq_zero.mpr
        intro b _
        simp [removedBy]
      rw [hcg, hz]
      simp
  | succ i ih =>
      intro h1
      have hi : i < dates.length := Nat.lt_of_succ_lt h1
      have hsplit : dates.take (i + 1 + 1) = dates.take (i + 1) ++ [dates[i + 1]] := by
        rw [List.take_succ, List.getElem?_eq_getElem h1]
        simp
      have hlen1 : 1 ≤ (dates.take (i + 1)).length := by
        rw [List.length_take]; omega
      have hnotmem : dates[i + 1] ∉ dates.take (i + 1) := by
        intro hmem
        rcases List.mem_take_iff_getElem.mp hmem with ⟨j, hj, hgj⟩
        have : j = i + 1 := (List.Nodup.getElem_inj_iff hnd).mp hgj
        omega
      have hnotmem2 : dates[i + 1] ∉ (dates.take (i + 1)).drop 1 := by
        intro hmem
        exact hnotmem (List.mem_of_mem_drop hmem)
      have hfirst : dates[i + 1] ≠ minList dates := by
        rw [minList_sorted_getElem hs (Nat.lt_of_le_of_lt (Nat.zero_le _) h1)]
        intro hcon
        have : i + 1 = 0 := (List.Nodup.getElem_inj_iff hnd).mp hcon
        omega
      have hdropsplit : (dates.take (i + 1 + 1)).drop 1
          = (dates.take (i + 1)).drop 1 ++ [dates[i + 1]] := by
        rw [hsplit, List.drop_append_of_le_length hlen1]
      rw [lvlOf_succ base dates c i h1, ih hi, hdropsplit, hsplit]
      rw [countP_addedBy_snoc base c _ _ hnotmem, countP_removedBy_snoc base c _ _ hnotmem2]
      unfold tmpOf
      rw [if_neg hfirst]
      unfold chOf addOf
      rw [if_neg hfirst, ecOf_eq_countP, rmOf_eq_countP]
      push_cast
      ring

/-!  Claim C5: the panel bootstrap and levels recurrence.  -/

/-- Claim C5: in the panel produced by `create_panel`, for every country,
`additions` at the minimum grid date is 0, `levels` at the minimum grid date
equals that country's `entity_counts` there, and at every later grid date
`levels[t] = levels[t-1] + change[t]` with `change = additions - removals`. -/
theorem c5_panel_bootstrap_and_recurrence {P : Type} (data : List (Row P))
    (c : String) (i : Nat) (hne : 0 < (panelDates data).length)
    (hi : i < (panelDates data).length) (h0 : 0 < i) :
    additionsAt data c (firstDate data) = 0
    ∧ levelsAt data c 0 = (entityCountsAt data c (firstDate data) : Int)
    ∧ levelsAt data c i =
        levelsAt data c (i - 1) + changeAt data c ((panelDates data).getD i ⟨0, 0, 0⟩) := by
  refine ⟨?_, ?_, ?_⟩
  · unfold additionsAt addOf
    rw [if_pos rfl]
  · unfold levelsAt lvlOf entityCountsAt firstDate
    have hd0 : (panelDates data).take (0 + 1) = [(panelDates data)[0]] := by
      rw [List.take_succ, List.getElem?_eq_getElem hne]
      simp
    simp only [hd0]
    simp only [List.map, List.sum_cons, List.sum_nil]
    have hmin : minList (panelDates data) = (panelDates data)[0] :=
      minList_sorted_getElem (panelDates_sorted data) hne
    unfold tmpOf
    rw [hmin, if_pos rfl]
    simp
  · match i, h0 with
    | i + 1, _ =>
        have hfirst : (panelDates data)[i + 1] ≠ minList (panelDates data) := by
          rw [minList_sorted_getElem (panelDates_sorted data) hne]
          intro hcon
          have : i + 1 = 0 := (List.Nodup.getElem_inj_iff (panelDates_nodup data)).mp hcon
          omega
        unfold levelsAt changeAt
        rw [lvlOf_succ _ _ _ _ hi]
        simp only [Nat.add_sub_cancel]
        rw [List.getD_eq_getElem _ _ hi]
        unfold tmpOf
        rw [if_neg hfirst]
        unfold firstDate
        rfl

/-- Witness for C5 on a concrete two-date tracked list. -/
theorem c5_panel_bootstrap_and_recurrence_witness :
    (0 < (panelDates dataPanelW).length) ∧ (1 < (panelDates dataPanelW).length) ∧ (0 < 1)
    ∧ (additionsAt dataPanelW cX (firstDate dataPanelW) = 0
       ∧ levelsAt dataPanelW cX 0 = (entityCountsAt dataPanelW cX (firstDate dataPanelW) : Int)
       ∧ levelsAt dataPanelW cX 1 =
           levelsAt dataPanelW cX 0 + changeAt dataPanelW cX ((panelDates dataPanelW).getD 1 ⟨0, 0, 0⟩)) :=
  ⟨by decide, by decide, by decide,
    c5_panel_bootstrap_and_recurrence dataPanelW cX 1 (by decide) (by decide) (by decide)⟩

/-!  Claim C6: non-negativity of `levels`.  -/

/-- Counterexample to claim C6 as stated: for the tracked list `dataC6x`
(whose removed record has an `add_date` matching no grid date), `levels`
for country `X` at the second grid date is negative. -/
theorem c6_levels_nonneg_counterexample :
    1 < (panelDates dataC6x).length ∧ levelsAt dataC6x cX 1 < 0 := by
  constructor
  · decide
  · decide

/-- Claim C6 as amended: `levels` is non-negative for every tracked list in
which each base record's `add_date` occurs among the list's report dates and
precedes its `removal_date` whenever one is set — in particular for the
output of either reconciler. -/
theorem c6_levels_nonneg_amended {P : Type} (data : List (Row P)) (c : String)
    (i : Nat) (hi : i < (panelDates data).length)
    (h1 : ∀ b ∈ panelBase data, b.add_date ∈ panelDates data)
    (h2 : ∀ b ∈ panelBase data, ∀ r ∈ b.removal_date.toList, Date.le b.add_date r) :
    0 ≤ levelsAt data c i := by
  unfold levelsAt
  rw [lvlOf_eq_counts (panelBase data) (panelDates data) c (panelDates_sorted data)
    (panelDates_nodup data) i hi]
  rw [sub_nonneg]
  rw [Int.ofNat_le]
  apply List.countP_mono_left
  intro b hb hrem
  rw [decide_eq_true_eq] at hrem ⊢
  obtain ⟨hc, r, hr, hsome⟩ := hrem
  refine ⟨hc, ?_⟩
  have hradd : Date.le b.add_date r := by
    apply h2 b hb
    rw [hsome]
    simp
  have hrtake : r ∈ (panelDates data).take (i + 1) := List.mem_of_mem_drop hr
  exact mem_take_of_le (panelDates_sorted data) (panelDates_nodup data)
    (h1 b hb) hrtake hradd

/-- Witness for the amended C6 on a concrete well-formed tracked list. -/
theorem c6_levels_nonneg_amended_witness :
    (1 < (panelDates dataPanelW).length)
    ∧ (∀ b ∈ panelBase dataPanelW, b.add_date ∈ panelDates dataPanelW)
    ∧ (∀ b ∈ panelBase dataPanelW, ∀ r ∈ b.removal_date.toList, Date.le b.add_date r)
    ∧ 0 ≤ levelsAt dataPanelW cX 1 :=
  ⟨by decide, by decide, by decide,
    c6_levels_nonneg_amended dataPanelW cX 1 (by decide) (by decide) (by decide)⟩

/-!  Claim C10: removal dates outside the date grid are invisible.  -/

theorem censorBase_country (dates : List Date) (b : BaseRec) :
    (censorBase dates b).country = b.country := by
  unfold censorBase
  match b.removal_date with
  | none => rfl
  | some r => by_cases hr : r ∈ dates <;> simp [hr]

theorem censorBase_add (dates : List Date) (b : BaseRec) :
    (censorBase dates b).add_date = b.add_date := by
  unfold censorBase
  match b.removal_date with
  | none => rfl
  | some r => by_cases hr : r ∈ dates <;> simp [hr]

theorem ecOf_censor (base : List BaseRec) (dates : List Date) (c : String) (t : Date) :
    ecOf (base.map (censorBase dates)) c t = ecOf base c t := by
  unfold ecOf
  rw [List.filter_map, List.length_map]
  apply congrArg
  apply List.filter_congr
  intro b _
  simp only [Function.comp_apply]
  rw [decide_eq_decide, censorBase_country, censorBase_add]

theorem rmOf_censor (base : List BaseRec) (dates : List Date) (c : String) {t : Date}
    (ht : t ∈ dates) :
    rmOf (base.map (censorBase dates)) c t = rmOf base c t := by
  unfold rmOf
  rw [List.filter_map, List.length_map]
  apply congrArg
  apply List.filter_congr
  intro b _
  simp only [Function.comp_apply]
  rw [decide_eq_decide, censorBase_country]
  unfold censorBase
  match hrem : b.removal_date with
  | none => simp [hrem]
  | some r =>
      by_cases hr : r ∈ dates
      · simp [hr, hrem]
      · simp only [hr, if_neg, ite_false]
        constructor
        · rintro ⟨-, h⟩
          exact absurd h (by simp)
        · rintro ⟨hc, h⟩
          have : r = t := by injection h
          exact absurd (this ▸ ht) hr

/-- Claim C10: a lifecycle record whose `removal_date` matches no date of
the panel grid is counted in no `removals` cell; nulling such removal dates
out changes neither `removals` at any grid date nor `levels` anywhere, so
the panel treats the record as never removed. -/
theorem c10_orphan_removal_invisible {P : Type} (data : List (Row P)) (c : String)
    (i : Nat) (t : Date) (ht : t ∈ panelDates data) :
    rmOf ((panelBase data).map (censorBase (panelDates data))) c t = removalsAt data c t
    ∧ lvlOf ((panelBase data).map (censorBase (panelDates data))) (panelDates data) c i
        = levelsAt data c i := by
  constructor
  · exact rmOf_censor (panelBase data) (panelDates data) c ht
  · unfold lvlOf levelsAt lvlOf
    apply congrArg
    apply List.map_congr_left
    intro u hu
    have hu2 : u ∈ panelDates data := List.mem_of_mem_take hu
    unfold tmpOf chOf addOf
    rw [ecOf_censor, rmOf_censor (panelBase data) (panelDates data) c hu2]

/-- Witness for C10 at a concrete grid date. -/
theorem c10_orphan_removal_invisible_witness :
    (⟨2021, 2, 28⟩ : Date) ∈ panelDates dataC6x
    ∧ (rmOf ((panelBase dataC6x).map (censorBase (panelDates dataC6x))) cX ⟨2021, 2, 28⟩
         = removalsAt dataC6x cX ⟨2021, 2, 28⟩
       ∧ lvlOf ((panelBase dataC6x).map (censorBase (panelDates dataC6x)))
           (panelDates dataC6x) cX 1 = levelsAt dataC6x cX 1) :=
  ⟨by decide, c10_orphan_removal_invisible dataC6x cX 1 ⟨2021, 2, 28⟩ (by decide)⟩

/-!  Claim C8: the Country Normalizer.  -/

theorem normalizeCountry_eq_wbg_iff (c0 : String) :
    normalizeCountry c0 = wbgLabel ↔ (c0 ∈ wbgVariants ∨ c0 = wbgLabel) := by
  unfold normalizeCountry
  by_cases h : c0 ∈ wbgVariants <;> simp [h]

/-- Claim C8: the four territory variants are all collapsed into the single
`West Bank and Gaza` label, whose `entity_counts` cell sums the records of
all of them, and no record with a special-cased country value (leading `-`,
leading `Region` after the mapping, or `undetermined`) survives into the
record list the panel counts. -/
theorem c8_country_normalizer {P : Type} (data : List (Row P)) (t : Date) :
    entityCountsAt data wbgLabel t =
      ((baseRecords data).filter (fun b =>
        decide ((b.country ∈ wbgVariants ∨ b.country = wbgLabel) ∧ b.add_date = t))).length
    ∧ ((panelBase data).filter (fun b => isSpecialCountry b.country)).length = 0 := by
  constructor
  · unfold entityCountsAt ecOf panelBase
    rw [List.filter_filter, List.filter_map, List.length_map]
    apply congrArg
    apply List.filter_congr
    intro b _
    simp only [Function.comp_apply]
    have hsp : isSpecialCountry wbgLabel = false := by decide
    by_cases hc : normalizeCountry b.country = wbgLabel
    · have hc2 : b.country ∈ wbgVariants ∨ b.country = wbgLabel :=
        (normalizeCountry_eq_wbg_iff b.country).mp hc
      by_cases ht2 : b.add_date = t
      · simp [hc, hc2, ht2, hsp]
      · simp [hc, hc2, ht2]
    · have hc2 : ¬(b.country ∈ wbgVariants ∨ b.country = wbgLabel) := by
        intro h
        exact hc ((normalizeCountry_eq_wbg_iff b.country).mpr h)
      simp [hc, hc2]
  · rw [List.length_eq_zero, List.filter_eq_nil_iff]
    intro b hb
    have h2 := (List.mem_filter.mp hb).2
    simp only [Bool.not_eq_true'] at h2
    simp [h2]

/-!  Claim C9: schema drift handling in `_read_clean_csv`.  -/

theorem keptRows_idem (rows : List (List String)) :
    keptRows (keptRows rows) = keptRows rows := by
  unfold keptRows
  rw [List.filter_filter]
  apply List.filter_congr
  intro r _
  rw [Bool.and_self]

theorem collectRows_error_of_bad {l : List (List String)} {r : List String}
    (hr : r ∈ l) {s : String} (h0 : fieldAt r 0 = some s) (hbad : natFromStr s = none) :
    ∃ e, collectRows l = Except.error e := by
  induction l with
  | nil => exact absurd hr (List.not_mem_nil r)
  | cons a t ih =>
      rcases List.mem_cons.mp hr with h1 | h2
      · subst h1
        have hpe : parseEnt r = Except.error s := by
          unfold parseEnt
          rw [h0]
          simp [hbad]
        refine ⟨s, ?_⟩
        unfold collectRows
        rw [hpe]
      · rcases ih h2 with ⟨e, he⟩
        unfold collectRows
        match hpa : parseEnt a with
        | Except.error e2 => exact ⟨e2, rfl⟩
        | Except.ok v =>
            rw [he]
            exact ⟨e, rfl⟩

/-- Counterexample to claim C9 as stated: feeding a batch containing a row
shorter than the schema (second column absent) produces exactly the same
result as feeding the batch without that row — the row is silently dropped,
and the `Except.ok` result carries no rejection count or report. -/
theorem c9_schema_drift_counterexample :
    rowShort.length = 1
    ∧ readCleanCsv rowsC9x = readCleanCsv [["1", "Alice"]]
    ∧ readCleanCsv rowsC9x = Except.ok [(some 1, ["1", "Alice"])] :=
  ⟨rfl, rfl, rfl⟩

/-- Claim C9 as amended: a snapshot row whose second schema column is
absent is silently dropped, with no count or report surfaced (the output on
any batch equals the output on its kept rows alone); a kept row with a
non-numeric entity id fails the entire read with an error rather than being
coerced; short rows that retain their second column are kept, padded with
missing values. -/
theorem c9_schema_drift_amended (rows : List (List String)) :
    readCleanCsv rows = readCleanCsv (keptRows rows)
    ∧ (∀ r ∈ rows, (fieldAt r 1).isSome = false → r ∉ keptRows rows)
    ∧ (∀ r ∈ keptRows rows, ∀ s, fieldAt r 0 = some s → natFromStr s = none →
        ∃ e, readCleanCsv rows = Except.error e) := by
  refine ⟨?_, ?_, ?_⟩
  · unfold readCleanCsv
    rw [keptRows_idem]
  · intro r _ hnone hmem
    have := (List.mem_filter.mp hmem).2
    rw [hnone] at this
    exact Bool.false_ne_true this
  · intro r hr s h0 hbad
    exact collectRows_error_of_bad hr h0 hbad

/-- Witness for the amended C9 on a concrete batch. -/
theorem c9_schema_drift_amended_witness :
    (readCleanCsv rowsC9w = readCleanCsv (keptRows rowsC9w))
    ∧ (rowShort ∈ rowsC9w ∧ (fieldAt rowShort 1).isSome = false
        ∧ rowShort ∉ keptRows rowsC9w)
    ∧ (rowBad ∈ keptRows rowsC9w ∧ fieldAt rowBad 0 = some sBad
        ∧ natFromStr sBad = none ∧ ∃ e, readCleanCsv rowsC9w = Except.error e) :=
  ⟨(c9_schema_drift_amended rowsC9w).1,
   ⟨by decide, by decide,
    (c9_schema_drift_amended rowsC9w).2.1 rowShort (by decide) (by decide)⟩,
   ⟨by decide, by decide, by decide,
    (c9_schema_drift_amended rowsC9w).2.2 rowBad (by decide) sBad (by decide) (by decide)⟩⟩

/-!  Helper lemmas: the incremental and historical reconcilers.  -/

theorem mem_tagCurrent {P : Type} {cur : List (Obs P)} {today : Date} {r : Row P}
    (h : r ∈ tagCurrent cur today) :
    r.rep_date = today ∧ r.add_date = today ∧ r.removal_date = none := by
  rcases List.mem_map.mp h with ⟨o, -, ho⟩
  rw [← ho]
  exact ⟨rfl, rfl, rfl⟩

theorem mem_tagCurrent_obs {P : Type} {cur : List (Obs P)} {today : Date} {r : Row P}
    (h : r ∈ tagCurrent cur today) :
    ∃ o ∈ cur, o.ent = r.ent ∧ o.country = r.country := by
  rcases List.mem_map.mp h with ⟨o, ho, hor⟩
  rw [← hor]
  exact ⟨o, ho, rfl, rfl⟩

theorem originalAdd_eq_none_iff {P : Type} {ex : List (Row P)} {e : Nat} {c : String} :
    originalAdd ex e c = none ↔ ∀ x ∈ ex, ¬(x.ent = e ∧ x.country = c) := by
  unfold originalAdd
  rw [Option.map_eq_none']
  rw [List.find?_eq_none]
  constructor
  · intro h x hx
    have := h x hx
    rw [decide_eq_true_eq] at this
    exact this
  · intro h x hx
    rw [decide_eq_true_eq]
    exact h x hx

theorem originalAdd_eq_some {P : Type} {ex : List (Row P)} {e : Nat} {c : String}
    {a : Date} (h : originalAdd ex e c = some a) :
    ∃ x ∈ ex, x.ent = e ∧ x.country = c ∧ x.add_date = a := by
  unfold originalAdd at h
  rcases Option.map_eq_some'.mp h with ⟨x, hfind, hxa⟩
  have hx := List.mem_of_find?_eq_some hfind
  have hp := List.find?_some hfind
  rw [decide_eq_true_eq] at hp
  exact ⟨x, hx, hp.1, hp.2, hxa⟩

theorem mem_fullHist {P : Type} {snaps : List (Date × List (Obs P))} {r : Row P} :
    r ∈ fullHist snaps → ∃ s ∈ snaps, r ∈ snapRows s := by
  induction snaps with
  | nil => intro h; exact absurd h (List.not_mem_nil r)
  | cons s t ih =>
      intro h
      rw [fullHist] at h
      rcases List.mem_append.mp h with h1 | h2
      · exact ⟨s, List.mem_cons_self s t, h1⟩
      · rcases ih h2 with ⟨s2, hs2, hr2⟩
        exact ⟨s2, List.mem_cons_of_mem s hs2, hr2⟩

/-- `reconRowInc` preserves the observation columns and the report date. -/
theorem reconRowInc_obs {P : Type} [DecidableEq P] (full ex : List (Row P))
    (today : Date) (r : Row P) :
    (reconRowInc full ex today r).ent = r.ent
    ∧ (reconRowInc full ex today r).country = r.country
    ∧ (reconRowInc full ex today r).payload = r.payload
    ∧ (reconRowInc full ex today r).rep_date = r.rep_date :=
  ⟨rfl, rfl, rfl, rfl⟩

/-- `reconRowHist` preserves the observation columns and the report date. -/
theorem reconRowHist_obs {P : Type} [DecidableEq P] (full : List (Row P))
    (latest : Date) (r : Row P) :
    (reconRowHist full latest r).ent = r.ent
    ∧ (reconRowHist full latest r).country = r.country
    ∧ (reconRowHist full latest r).payload = r.payload
    ∧ (reconRowHist full latest r).rep_date = r.rep_date :=
  ⟨rfl, rfl, rfl, rfl⟩

theorem reconRowInc_add {P : Type} [DecidableEq P] (full ex : List (Row P))
    (today : Date) (r : Row P) :
    (reconRowInc full ex today r).add_date =
      match originalAdd ex r.ent r.country with
      | some a => a
      | none => r.add_date := rfl

theorem reconRowInc_removal {P : Type} [DecidableEq P] (full ex : List (Row P))
    (today : Date) (r : Row P) :
    (reconRowInc full ex today r).removal_date =
      if Date.lt (lastDate full r.ent r.country) today ∧ r.removal_date = none
      then some (clampMonthEnd (lastDate full r.ent r.country) today)
      else r.removal_date := rfl

theorem reconRowHist_add {P : Type} [DecidableEq P] (full : List (Row P))
    (latest : Date) (r : Row P) :
    (reconRowHist full latest r).add_date = firstSeen full r.ent r.country := rfl

theorem reconRowHist_removal {P : Type} [DecidableEq P] (full : List (Row P))
    (latest : Date) (r : Row P) :
    (reconRowHist full latest r).removal_date =
      if Date.lt (lastDate full r.ent r.country) latest
      then some (Date.monthEnd1 (lastDate full r.ent r.country))
      else none := rfl

/-!  Claim C1: stability of `add_date` under incremental runs.  -/

/-- Claim C1: for every key already present in the prior tracked list (whose
rows carry one well-defined `add_date` for that key), every output row of
`update_ofac_list` with that key keeps the prior `add_date`, even when the
fresh snapshot carries a changed payload variant; rows of keys absent from
the prior list get today's date. -/
theorem c1_add_date_stability {P : Type} [DecidableEq P] (ex : List (Row P))
    (cur : List (Obs P)) (today : Date) (r' : Row P)
    (hr : r' ∈ updateOfacList ex cur today) :
    (∀ e ∈ ex, e.ent = r'.ent → e.country = r'.country →
      (∀ e2 ∈ ex, e2.ent = r'.ent → e2.country = r'.country → e2.add_date = e.add_date) →
      r'.add_date = e.add_date)
    ∧ ((∀ e ∈ ex, ¬(e.ent = r'.ent ∧ e.country = r'.country)) → r'.add_date = today) := by
  rcases List.mem_map.mp hr with ⟨r, hrd, hgr⟩
  have hent : r'.ent = r.ent := by
    rw [← hgr]; exact (reconRowInc_obs _ _ _ _).1
  have hcty : r'.country = r.country := by
    rw [← hgr]; exact (reconRowInc_obs _ _ _ _).2.1
  constructor
  · intro e he hee hec hconst
    match hoa : originalAdd ex r.ent r.country with
    | some a =>
        rcases originalAdd_eq_some hoa with ⟨x, hx, hxe, hxc, hxa⟩
        have hxadd : x.add_date = e.add_date := by
          apply hconst x hx
          · rw [hent]; exact hxe
          · rw [hcty]; exact hxc
        have : r'.add_date = a := by
          rw [← hgr, reconRowInc_add, hoa]
        rw [this, ← hxa, hxadd]
    | none =>
        exfalso
        have := originalAdd_eq_none_iff.mp hoa e he
        exact this ⟨by rw [← hent, hee], by rw [← hcty, hec]⟩
  · intro habs
    match hoa : originalAdd ex r.ent r.country with
    | some a =>
        exfalso
        rcases originalAdd_eq_some hoa with ⟨x, hx, hxe, hxc, -⟩
        exact habs x hx ⟨by rw [hent]; exact hxe, by rw [hcty]; exact hxc⟩
    | none =>
        have hradd : r'.add_date = r.add_date := by
          rw [← hgr, reconRowInc_add, hoa]
        have hrfull : r ∈ fullRows ex cur today := mem_of_mem_dedupBy hrd
        rcases List.mem_append.mp hrfull with hex | hcur
        · exfalso
          exact habs r hex ⟨hent.symm, hcty.symm⟩
        · rw [hradd, (mem_tagCurrent hcur).2.1]

/-- Witness for C1: a payload-variant row of the tracked key keeps
`add_date` 2021-01-31, and the new key's row gets today's date. -/
theorem c1_add_date_stability_witness :
    ((⟨1, cX, 7, ⟨2021, 2, 28⟩, ⟨2021, 1, 31⟩, none⟩ : Row Nat)
        ∈ updateOfacList exC1w curC1w ⟨2021, 2, 28⟩)
    ∧ ((⟨1, cX, 0, ⟨2021, 1, 31⟩, ⟨2021, 1, 31⟩, none⟩ : Row Nat) ∈ exC1w)
    ∧ (⟨1, cX, 7, ⟨2021, 2, 28⟩, ⟨2021, 1, 31⟩, none⟩ : Row Nat).add_date
        = (⟨1, cX, 0, ⟨2021, 1, 31⟩, ⟨2021, 1, 31⟩, none⟩ : Row Nat).add_date
    ∧ ((⟨2, cY, 0, ⟨2021, 2, 28⟩, ⟨2021, 2, 28⟩, none⟩ : Row Nat)
        ∈ updateOfacList exC1w curC1w ⟨2021, 2, 28⟩)
    ∧ (⟨2, cY, 0, ⟨2021, 2, 28⟩, ⟨2021, 2, 28⟩, none⟩ : Row Nat).add_date = ⟨2021, 2, 28⟩ :=
  ⟨by decide, by decide,
   (c1_add_date_stability exC1w curC1w ⟨2021, 2, 28⟩ _ (by decide)).1
     ⟨1, cX, 0, ⟨2021, 1, 31⟩, ⟨2021, 1, 31⟩, none⟩ (by decide) (by decide) (by decide)
     (by decide),
   by decide,
   (c1_add_date_stability exC1w curC1w ⟨2021, 2, 28⟩ _ (by decide)).2 (by decide)⟩

/-!  Claim C2: the incremental removal rule.  -/

/-- Counterexample to claim C2 as stated: the tracked key (1, X) is last
observed 2021-01-15; running with reference date 2021-03-31 sets its
`removal_date` to 2021-01-31 (the nearest month-end after the last
observation), not to 2021-02-28, the last day of the month following the
last-observed date that the claim prescribes. -/
theorem c2_removal_rule_counterexample :
    lastDate (fullRows exC2x ([] : List (Obs Nat)) ⟨2021, 3, 31⟩) 1 cX = ⟨2021, 1, 15⟩
    ∧ (updateOfacList exC2x ([] : List (Obs Nat)) ⟨2021, 3, 31⟩).map
        (fun r => r.removal_date) = [some ⟨2021, 1, 31⟩]
    ∧ specMonthFollowingEnd ⟨2021, 1, 15⟩ = ⟨2021, 2, 28⟩
    ∧ (⟨2021, 1, 31⟩ : Date) ≠ ⟨2021, 2, 28⟩ :=
  ⟨by decide, by decide, by decide, by decide⟩

/-- Claim C2 as amended: for each dedup-surviving row whose key's
last-observed date is strictly before today and whose `removal_date` is
absent, `update_ofac_list` sets `removal_date` to the nearest month-end
strictly after the last-observed date (the end of that date's own month
unless it already is a month-end), replaced by today when that month-end
lies in the future; every other row keeps its `removal_date` unchanged. -/
theorem c2_removal_rule_amended {P : Type} [DecidableEq P] (ex : List (Row P))
    (cur : List (Obs P)) (today : Date) (r : Row P)
    (hrd : r ∈ dedupBy key3 (fullRows ex cur today)) :
    reconRowInc (fullRows ex cur today) ex today r ∈ updateOfacList ex cur today
    ∧ ((Date.lt (lastDate (fullRows ex cur today) r.ent r.country) today
          ∧ r.removal_date = none) →
        (reconRowInc (fullRows ex cur today) ex today r).removal_date =
          some (clampMonthEnd (lastDate (fullRows ex cur today) r.ent r.country) today))
    ∧ (¬(Date.lt (lastDate (fullRows ex cur today) r.ent r.country) today
          ∧ r.removal_date = none) →
        (reconRowInc (fullRows ex cur today) ex today r).removal_date = r.removal_date) := by
  refine ⟨List.mem_map_of_mem _ hrd, ?_, ?_⟩
  · intro hcond
    rw [reconRowInc_removal, if_pos hcond]
  · intro hcond
    rw [reconRowInc_removal, if_neg hcond]

/-- Witness for the amended C2 at the concrete mid-month input. -/
theorem c2_removal_rule_amended_witness :
    ((⟨1, cX, 0, ⟨2021, 1, 15⟩, ⟨2021, 1, 15⟩, none⟩ : Row Nat)
        ∈ dedupBy key3 (fullRows exC2x ([] : List (Obs Nat)) ⟨2021, 3, 31⟩))
    ∧ (Date.lt (lastDate (fullRows exC2x ([] : List (Obs Nat)) ⟨2021, 3, 31⟩) 1 cX)
          ⟨2021, 3, 31⟩)
    ∧ (reconRowInc (fullRows exC2x ([] : List (Obs Nat)) ⟨2021, 3, 31⟩) exC2x ⟨2021, 3, 31⟩
        ⟨1, cX, 0, ⟨2021, 1, 15⟩, ⟨2021, 1, 15⟩, none⟩ ∈
          updateOfacList exC2x ([] : List (Obs Nat)) ⟨2021, 3, 31⟩)
    ∧ (reconRowInc (fullRows exC2x ([] : List (Obs Nat)) ⟨2021, 3, 31⟩) exC2x ⟨2021, 3, 31⟩
        ⟨1, cX, 0, ⟨2021, 1, 15⟩, ⟨2021, 1, 15⟩, none⟩).removal_date =
        some (clampMonthEnd
          (lastDate (fullRows exC2x ([] : List (Obs Nat)) ⟨2021, 3, 31⟩) 1 cX) ⟨2021, 3, 31⟩) :=
  ⟨by decide, by decide,
   (c2_removal_rule_amended exC2x ([] : List (Obs Nat)) ⟨2021, 3, 31⟩
      ⟨1, cX, 0, ⟨2021, 1, 15⟩, ⟨2021, 1, 15⟩, none⟩ (by decide)).1,
   (c2_removal_rule_amended exC2x ([] : List (Obs Nat)) ⟨2021, 3, 31⟩
      ⟨1, cX, 0, ⟨2021, 1, 15⟩, ⟨2021, 1, 15⟩, none⟩ (by decide)).2.1 ⟨by decide, rfl⟩⟩

/-!  Claim C3: the historical removal rule.  -/

/-- Counterexample to claim C3 as stated: the key of the first snapshot
(report date 2021-01-15) is absent from the final snapshot and receives
`removal_date` 2021-01-31 — the nearest month-end after its last
observation — not 2021-02-28, the last day of the following month that the
claim prescribes. -/
theorem c3_historical_removal_counterexample :
    (reconcileHistorical snapsC3x).map (fun r => r.removal_date)
      = [some ⟨2021, 1, 31⟩, none]
    ∧ lastDate (fullHist snapsC3x) 1 cX = ⟨2021, 1, 15⟩
    ∧ specMonthFollowingEnd ⟨2021, 1, 15⟩ = ⟨2021, 2, 28⟩
    ∧ (⟨2021, 1, 31⟩ : Date) ≠ ⟨2021, 2, 28⟩ :=
  ⟨by decide, by decide, by decide, by decide⟩

/-- Claim C3 as amended: in the historical reconciler's output,
`removal_date` is set iff the key's maximum observed report date is strictly
before the final snapshot's report date, and when set it equals the nearest
month-end strictly after that maximum observed date (the end of its own
month unless it already is a month-end). -/
theorem c3_historical_removal_amended {P : Type} [DecidableEq P]
    (snaps : List (Date × List (Obs P))) (r' : Row P)
    (hr : r' ∈ reconcileHistorical snaps) :
    (r'.removal_date ≠ none ↔
      Date.lt (lastDate (fullHist snaps) r'.ent r'.country) (latestOf snaps))
    ∧ ∀ v ∈ r'.removal_date.toList,
        v = Date.monthEnd1 (lastDate (fullHist snaps) r'.ent r'.country) := by
  rcases List.mem_map.mp hr with ⟨r, hrd, hgr⟩
  have hent : r'.ent = r.ent := by
    rw [← hgr]; exact (reconRowHist_obs _ _ _).1
  have hcty : r'.country = r.country := by
    rw [← hgr]; exact (reconRowHist_obs _ _ _).2.1
  have hrem : r'.removal_date =
      if Date.lt (lastDate (fullHist snaps) r.ent r.country) (latestOf snaps)
      then some (Date.monthEnd1 (lastDate (fullHist snaps) r.ent r.country))
      else none := by
    rw [← hgr, reconRowHist_removal]
  rw [hent, hcty, hrem]
  by_cases hc : Date.lt (lastDate (fullHist snaps) r.ent r.country) (latestOf snaps)
  · rw [if_pos hc]
    refine ⟨⟨fun _ => hc, fun _ => by simp⟩, ?_⟩
    intro v hv
    simp only [Option.toList_some, List.mem_singleton] at hv
    exact hv
  · rw [if_neg hc]
    refine ⟨⟨fun h => absurd rfl h, fun h => absurd h hc⟩, ?_⟩
    intro v hv
    simp at hv

/-- Witness for the amended C3 on the two-snapshot input. -/
theorem c3_historical_removal_amended_witness :
    ((⟨1, cX, 0, ⟨2021, 1, 15⟩, ⟨2021, 1, 15⟩, some ⟨2021, 1, 31⟩⟩ : Row Nat)
        ∈ reconcileHistorical snapsC3x)
    ∧ (((⟨1, cX, 0, ⟨2021, 1, 15⟩, ⟨2021, 1, 15⟩, some ⟨2021, 1, 31⟩⟩ : Row Nat).removal_date ≠ none ↔
        Date.lt (lastDate (fullHist snapsC3x) 1 cX) (latestOf snapsC3x))
       ∧ ∀ v ∈ (⟨1, cX, 0, ⟨2021, 1, 15⟩, ⟨2021, 1, 15⟩,
            some ⟨2021, 1, 31⟩⟩ : Row Nat).removal_date.toList,
          v = Date.monthEnd1 (lastDate (fullHist snapsC3x) 1 cX)) :=
  ⟨by decide,
   c3_historical_removal_amended snapsC3x
     ⟨1, cX, 0, ⟨2021, 1, 15⟩, ⟨2021, 1, 15⟩, some ⟨2021, 1, 31⟩⟩ (by decide)⟩

/-!  Claim C7: the lifecycle ordering invariant.  -/

/-- Counterexample to claim C7 as stated: a key with a finalized
`removal_date` 2021-02-28 reappears in the 2021-05-31 snapshot; the
retained row keeps the stale `removal_date`, which now precedes the key's
last-observed date. -/
theorem c7_lifecycle_invariant_counterexample :
    updateOfacList exC7x curC7x ⟨2021, 5, 31⟩
      = [⟨1, cX, 0, ⟨2021, 1, 31⟩, ⟨2021, 1, 31⟩, some ⟨2021, 2, 28⟩⟩]
    ∧ lastDate (fullRows exC7x curC7x ⟨2021, 5, 31⟩) 1 cX = ⟨2021, 5, 31⟩
    ∧ ¬ Date.le ⟨2021, 5, 31⟩ ⟨2021, 2, 28⟩ :=
  ⟨by decide, by decide, by decide⟩

/-- Claim C7 as amended: `add_date ≤ last-observed ≤ removal_date` (when
set) holds unconditionally for the historical reconciler on calendar-valid
snapshot dates, and for an incremental run over a prior tracked list that
itself satisfies the invariant, provided no key with a set `removal_date`
reappears in the fresh snapshot; a reappearing removed key violates the
second inequality (see the counterexample). -/
theorem c7_lifecycle_invariant_amended {P : Type} [DecidableEq P] :
    (∀ (snaps : List (Date × List (Obs P))), (∀ s ∈ snaps, Date.valid s.1) →
      ∀ r' ∈ reconcileHistorical snaps,
        Date.le r'.add_date (lastDate (fullHist snaps) r'.ent r'.country)
        ∧ ∀ v ∈ r'.removal_date.toList,
            Date.le (lastDate (fullHist snaps) r'.ent r'.country) v)
    ∧ (∀ (ex : List (Row P)) (cur : List (Obs P)) (today : Date),
        Date.valid today →
        (∀ e ∈ ex, Date.valid e.rep_date) →
        (∀ e ∈ ex, Date.le e.add_date e.rep_date) →
        (∀ e ∈ ex, ∀ v ∈ e.removal_date.toList, ∀ e2 ∈ ex,
          e2.ent = e.ent → e2.country = e.country → Date.le e2.rep_date v) →
        (∀ e ∈ ex, e.removal_date ≠ none →
          ∀ o ∈ cur, ¬(o.ent = e.ent ∧ o.country = e.country)) →
        ∀ r' ∈ updateOfacList ex cur today,
          Date.le r'.add_date (lastDate (fullRows ex cur today) r'.ent r'.country)
          ∧ ∀ v ∈ r'.removal_date.toList,
              Date.le (lastDate (fullRows ex cur today) r'.ent r'.country) v) := by
  constructor
  · intro snaps hval r' hr
    rcases List.mem_map.mp hr with ⟨r, hrd, hgr⟩
    subst hgr
    have hrfull : r ∈ fullHist snaps := mem_of_mem_dedupBy hrd
    have hrep : r.rep_date ∈ repsOf (fullHist snaps) r.ent r.country :=
      rep_mem_repsOf hrfull
    have hne : repsOf (fullHist snaps) r.ent r.country ≠ [] := List.ne_nil_of_mem hrep
    have hlastmem : lastDate (fullHist snaps) r.ent r.country
        ∈ repsOf (fullHist snaps) r.ent r.country := maxList_mem hne
    have hvlast : Date.valid (lastDate (fullHist snaps) r.ent r.country) := by
      rcases mem_repsOf_iff.mp hlastmem with ⟨row, hrow, -, -, hrepd⟩
      rcases mem_fullHist hrow with ⟨s, hs, hrs⟩
      rw [← hrepd, (mem_tagCurrent hrs).1]
      exact hval s hs
    constructor
    · show Date.le (firstSeen (fullHist snaps) r.ent r.country)
        (lastDate (fullHist snaps) r.ent r.country)
      exact le_maxList (minList_mem hne)
    · intro v hv
      show Date.le (lastDate (fullHist snaps) r.ent r.country) v
      have hrem := reconRowHist_removal (fullHist snaps) (latestOf snaps) r
      by_cases hc : Date.lt (lastDate (fullHist snaps) r.ent r.country) (latestOf snaps)
      · rw [hrem, if_pos hc] at hv
        simp only [Option.toList_some, List.mem_singleton] at hv
        rw [hv]
        exact Date.le_of_lt (Date.lt_monthEnd1 hvlast)
      · rw [hrem, if_neg hc] at hv
        simp at hv
  · intro ex cur today hvt hvex hp1 hp2 hnore r' hr
    rcases List.mem_map.mp hr with ⟨r, hrd, hgr⟩
    subst hgr
    have hrfull : r ∈ fullRows ex cur today := mem_of_mem_dedupBy hrd
    have hrep : r.rep_date ∈ repsOf (fullRows ex cur today) r.ent r.country :=
      rep_mem_repsOf hrfull
    have hne : repsOf (fullRows ex cur today) r.ent r.country ≠ [] :=
      List.ne_nil_of_mem hrep
    have hlastmem : lastDate (fullRows ex cur today) r.ent r.country
        ∈ repsOf (fullRows ex cur today) r.ent r.country := maxList_mem hne
    have hvlast : Date.valid (lastDate (fullRows ex cur today) r.ent r.country) := by
      rcases mem_repsOf_iff.mp hlastmem with ⟨row, hrow, -, -, hrepd⟩
      rcases List.mem_append.mp hrow with hex | hcur
      · rw [← hrepd]; exact hvex row hex
      · rw [← hrepd, (mem_tagCurrent hcur).1]; exact hvt
    constructor
    · show Date.le (reconRowInc (fullRows ex cur today) ex today r).add_date
        (lastDate (fullRows ex cur today) r.ent r.country)
      rw [reconRowInc_add]
      match hoa : originalAdd ex r.ent r.country with
      | some a =>
          rcases originalAdd_eq_some hoa with ⟨x, hx, hxe, hxc, hxa⟩
          have h1 : Date.le a x.rep_date := by
            rw [← hxa]; exact hp1 x hx
          have h2 : x.rep_date ∈ repsOf (fullRows ex cur today) r.ent r.country :=
            mem_repsOf_iff.mpr ⟨x, List.mem_append.mpr (Or.inl hx), hxe, hxc, rfl⟩
          exact Date.le_trans h1 (le_maxList h2)
      | none =>
          show Date.le r.add_date (lastDate (fullRows ex cur today) r.ent r.country)
          rcases List.mem_append.mp hrfull with hex | hcur
          · exact absurd ⟨rfl, rfl⟩ (originalAdd_eq_none_iff.mp hoa r hex)
          · rcases mem_tagCurrent hcur with ⟨hrep2, hadd2, -⟩
            have headd : r.add_date = r.rep_date := by rw [hadd2, hrep2]
            rw [headd]
            exact le_maxList hrep
    · intro v hv
      show Date.le (lastDate (fullRows ex cur today) r.ent r.country) v
      have hrem := reconRowInc_removal (fullRows ex cur today) ex today r
      by_cases hcond : Date.lt (lastDate (fullRows ex cur today) r.ent r.country) today
          ∧ r.removal_date = none
      · rw [hrem, if_pos hcond] at hv
        simp only [Option.toList_some, List.mem_singleton] at hv
        rw [hv]
        unfold clampMonthEnd
        by_cases hm : Date.lt today
            (Date.monthEnd1 (lastDate (fullRows ex cur today) r.ent r.country))
        · rw [if_pos hm]; exact Date.le_of_lt hcond.1
        · rw [if_neg hm]; exact Date.le_of_lt (Date.lt_monthEnd1 hvlast)
      · rw [hrem, if_neg hcond] at hv
        have hsome : r.removal_date = some v := by
          match hrm : r.removal_date with
          | none => rw [hrm] at hv; simp at hv
          | some w =>
              rw [hrm] at hv
              simp only [Option.toList_some, List.mem_singleton] at hv
              rw [hv]
        have hvmem : v ∈ r.removal_date.toList := by
          rw [hsome]; simp
        have hrnn : r.removal_date ≠ none := by
          rw [hsome]; simp
        have hrex : r ∈ ex := by
          rcases List.mem_append.mp hrfull with hex | hcur
          · exact hex
          · exfalso
            rw [(mem_tagCurrent hcur).2.2] at hsome
            exact Option.noConfusion hsome
        have hub : ∀ d ∈ repsOf (fullRows ex cur today) r.ent r.country, Date.le d v := by
          intro d hd
          rcases mem_repsOf_iff.mp hd with ⟨row, hrow, hrowe, hrowc, hrepd⟩
          rcases List.mem_append.mp hrow with hex2 | hcur2
          · rw [← hrepd]
            exact hp2 r hrex v hvmem row hex2 hrowe hrowc
          · exfalso
            rcases mem_tagCurrent_obs hcur2 with ⟨o, ho, hoe, hoc⟩
            apply hnore r hrex hrnn o ho
            exact ⟨by rw [hoe, hrowe], by rw [hoc, hrowc]⟩
        exact hub _ hlastmem

/-- Witness for the amended C7: the historical part at the two-snapshot
input, and the incremental part at a well-formed prior list whose removed
key does not reappear. -/
theorem c7_lifecycle_invariant_amended_witness :
    ((∀ s ∈ snapsC3x, Date.valid s.1)
     ∧ ((⟨1, cX, 0, ⟨2021, 1, 15⟩, ⟨2021, 1, 15⟩, some ⟨2021, 1, 31⟩⟩ : Row Nat)
          ∈ reconcileHistorical snapsC3x)
     ∧ (Date.le (⟨2021, 1, 15⟩ : Date) (lastDate (fullHist snapsC3x) 1 cX)
        ∧ ∀ v ∈ (some (⟨2021, 1, 31⟩ : Date)).toList,
            Date.le (lastDate (fullHist snapsC3x) 1 cX) v))
    ∧ (((⟨1, cX, 1, ⟨2021, 2, 28⟩, ⟨2021, 1, 31⟩, none⟩ : Row Nat)
          ∈ updateOfacList exC7w curC7w ⟨2021, 2, 28⟩)
       ∧ (Date.le (⟨2021, 1, 31⟩ : Date)
            (lastDate (fullRows exC7w curC7w ⟨2021, 2, 28⟩) 1 cX)
          ∧ ∀ v ∈ (none : Option Date).toList,
              Date.le (lastDate (fullRows exC7w curC7w ⟨2021, 2, 28⟩) 1 cX) v)) :=
  ⟨⟨by decide, by decide,
    c7_lifecycle_invariant_amended.1 snapsC3x (by decide)
      ⟨1, cX, 0, ⟨2021, 1, 15⟩, ⟨2021, 1, 15⟩, some ⟨2021, 1, 31⟩⟩ (by decide)⟩,
   ⟨by decide,
    c7_lifecycle_invariant_amended.2 exC7w curC7w ⟨2021, 2, 28⟩
      (by decide) (by decide) (by decide) (by decide) (by decide)
      ⟨1, cX, 1, ⟨2021, 2, 28⟩, ⟨2021, 1, 31⟩, none⟩ (by decide)⟩⟩

/-!  Helper lemmas: equivalence of the two reconcilers (claim C4).  -/

theorem fullHist_append {P : Type} (xs ys : List (Date × List (Obs P))) :
    fullHist (xs ++ ys) = fullHist xs ++ fullHist ys := by
  induction xs with
  | nil => simp [fullHist]
  | cons s t ih =>
      rw [List.cons_append, fullHist, fullHist, ih, List.append_assoc]

theorem fullHist_concat {P : Type} (pre : List (Date × List (Obs P)))
    (s : Date × List (Obs P)) :
    fullHist (pre ++ [s]) = fullHist pre ++ snapRows s := by
  rw [fullHist_append]
  simp [fullHist]

theorem lastOf_concat (xs : List Date) (a : Date) : lastOf (xs ++ [a]) = a := by
  induction xs with
  | nil => rfl
  | cons b t ih =>
      match t with
      | [] => exact ih
      | c :: t2 => exact ih

theorem latestOf_concat {P : Type} (pre : List (Date × List (Obs P)))
    (s : Date × List (Obs P)) : latestOf (pre ++ [s]) = s.1 := by
  unfold latestOf
  rw [List.map_append]
  exact lastOf_concat _ _

theorem lastOf_eq_getLast : ∀ {l : List Date} (h : l ≠ []), lastOf l = l.getLast h
  | [a], _ => rfl
  | a :: b :: t, _ => by
      rw [show lastOf (a :: b :: t) = lastOf (b :: t) from rfl]
      rw [lastOf_eq_getLast (show (b :: t : List Date) ≠ [] by simp)]
      exact (List.getLast_cons (by simp)).symm

theorem key3_reconRowHist {P : Type} [DecidableEq P] (full : List (Row P))
    (latest : Date) (r : Row P) : key3 (reconRowHist full latest r) = key3 r := rfl

theorem key3_reconRowInc {P : Type} [DecidableEq P] (full ex : List (Row P))
    (today : Date) (r : Row P) : key3 (reconRowInc full ex today r) = key3 r := rfl

theorem reconcileHistorical_eq_map {P : Type} [DecidableEq P]
    {snaps : List (Date × List (Obs P))} (h : ((fullHist snaps).map key3).Nodup) :
    reconcileHistorical snaps =
      (fullHist snaps).map (reconRowHist (fullHist snaps) (latestOf snaps)) := by
  unfold reconcileHistorical
  rw [dedupBy_eq_self h]

theorem map_key3_map_pres {P : Type} (l : List (Row P)) (f : Row P → Row P)
    (hf : ∀ r, key3 (f r) = key3 r) : (l.map f).map key3 = l.map key3 := by
  rw [List.map_map]
  apply List.map_congr_left
  intro r _
  exact hf r

theorem repsOf_tagCurrent_mem {P : Type} {S : List (Obs P)} {d : Date}
    {e : Nat} {c : String} {y : Date} (h : y ∈ repsOf (tagCurrent S d) e c) : y = d := by
  rcases mem_repsOf_iff.mp h with ⟨row, hrow, -, -, hrep⟩
  rw [← hrep, (mem_tagCurrent hrow).1]

theorem repsOf_tagCurrent_nil {P : Type} {S : List (Obs P)} {d : Date}
    {e : Nat} {c : String} (h : ∀ o ∈ S, ¬(o.ent = e ∧ o.country = c)) :
    repsOf (tagCurrent S d) e c = [] := by
  unfold repsOf
  rw [List.map_eq_nil_iff, List.filter_eq_nil_iff]
  intro r hr
  rcases mem_tagCurrent_obs hr with ⟨o, ho, hoe, hoc⟩
  rw [decide_eq_true_eq]
  rintro ⟨h1, h2⟩
  exact h o ho ⟨by rw [hoe, h1], by rw [hoc, h2]⟩

theorem repsOf_tagCurrent_mem_d {P : Type} {S : List (Obs P)} {d : Date}
    {e : Nat} {c : String} (h : ∃ o ∈ S, o.ent = e ∧ o.country = c) :
    d ∈ repsOf (tagCurrent S d) e c := by
  rcases h with ⟨o, ho, hoe, hoc⟩
  apply mem_repsOf_iff.mpr
  refine ⟨⟨o.ent, o.country, o.payload, d, d, none⟩, ?_, hoe, hoc, rfl⟩
  exact List.mem_map_of_mem _ ho

theorem mem_fullHist_of_mem_snap {P : Type} {snaps : List (Date × List (Obs P))}
    {s : Date × List (Obs P)} {r : Row P} (hs : s ∈ snaps) (hr : r ∈ snapRows s) :
    r ∈ fullHist snaps := by
  induction snaps with
  | nil => exact absurd hs (List.not_mem_nil s)
  | cons a t ih =>
      rw [fullHist, List.mem_append]
      rcases List.mem_cons.mp hs with h1 | h2
      · exact Or.inl (h1 ▸ hr)
      · exact Or.inr (ih h2)

theorem repsOf_fullHist_dates {P : Type} {snaps : List (Date × List (Obs P))}
    {e : Nat} {c : String} {y : Date} (h : y ∈ repsOf (fullHist snaps) e c) :
    y ∈ snaps.map Prod.fst := by
  rcases mem_repsOf_iff.mp h with ⟨row, hrow, -, -, hrep⟩
  rcases mem_fullHist hrow with ⟨s, hs, hrs⟩
  rw [← hrep, (mem_tagCurrent hrs).1]
  exact List.mem_map_of_mem Prod.fst hs

/-- Looking a key's original `add_date` up in a historical-reconciler
output finds that key's group minimum. -/
theorem originalAdd_map_hist {P : Type} [DecidableEq P] (fp : List (Row P))
    (latest : Date) (e : Nat) (c : String)
    (hex : ∃ x ∈ fp, x.ent = e ∧ x.country = c) :
    originalAdd (fp.map (reconRowHist fp latest)) e c = some (firstSeen fp e c) := by
  unfold originalAdd
  rw [List.find?_map]
  have hpred : ((fun x : Row P => decide (x.ent = e ∧ x.country = c))
      ∘ reconRowHist fp latest) = (fun x : Row P => decide (x.ent = e ∧ x.country = c)) :=
    funext (fun r => rfl)
  rw [hpred]
  have hsome : (fp.find? (fun x => decide (x.ent = e ∧ x.country = c))).isSome := by
    rw [List.find?_isSome]
    rcases hex with ⟨x, hx, hx2⟩
    exact ⟨x, hx, by rw [decide_eq_true_eq]; exact hx2⟩
  rcases Option.isSome_iff_exists.mp hsome with ⟨x0, hx0⟩
  rw [hx0]
  have hp := List.find?_some hx0
  rw [decide_eq_true_eq] at hp
  show some ((reconRowHist fp latest x0).add_date) = some (firstSeen fp e c)
  apply congrArg
  rw [reconRowHist_add, hp.1, hp.2]

theorem iterIncremental_concat {P : Type} [DecidableEq P]
    (pre : List (Date × List (Obs P))) (s : Date × List (Obs P)) :
    iterIncremental (pre ++ [s]) = updateOfacList (iterIncremental pre) s.2 s.1 := by
  unfold iterIncremental
  rw [List.foldl_append]
  rfl

theorem rowExt {P : Type} {a b : Row P} (h1 : a.ent = b.ent) (h2 : a.country = b.country)
    (h3 : a.payload = b.payload) (h4 : a.rep_date = b.rep_date)
    (h5 : a.add_date = b.add_date) (h6 : a.removal_date = b.removal_date) : a = b := by
  cases a; cases b
  simp_all

/-- `reconRowInc` applied to a historical-reconciler row, with the key
projections reduced. -/
theorem reconRowInc_removal_hist {P : Type} [DecidableEq P] (full ex fp : List (Row P))
    (latest today : Date) (r : Row P) :
    (reconRowInc full ex today (reconRowHist fp latest r)).removal_date =
      if Date.lt (lastDate full r.ent r.country) today
          ∧ (reconRowHist fp latest r).removal_date = none
      then some (clampMonthEnd (lastDate full r.ent r.country) today)
      else (reconRowHist fp latest r).removal_date := rfl

theorem reconRowInc_add_hist {P : Type} [DecidableEq P] (full ex fp : List (Row P))
    (latest today : Date) (r : Row P) :
    (reconRowInc full ex today (reconRowHist fp latest r)).add_date =
      match originalAdd ex r.ent r.country with
      | some a => a
      | none => firstSeen fp r.ent r.country := rfl

theorem latestOf_eq_getLast {P : Type} (pre : List (Date × List (Obs P))) (h : pre ≠ []) :
    latestOf pre = (pre.getLast h).1 := by
  unfold latestOf
  have hm : pre.map Prod.fst ≠ [] := by
    intro hcon
    exact h (List.map_eq_nil_iff.mp hcon)
  rw [lastOf_eq_getLast hm, List.getLast_map]

/-- One incremental run on top of the historical reconciliation of a
snapshot prefix equals the historical reconciliation of the extended
sequence, under ascending unclamped dates, globally distinct records and
convex key appearance. -/
theorem update_step {P : Type} [DecidableEq P] (pre : List (Date × List (Obs P)))
    (d : Date) (S : List (Obs P))
    (hchain : List.Chain' stepOk ((pre ++ [(d, S)]).map Prod.fst))
    (hnodup : ((fullHist (pre ++ [(d, S)])).map key3).Nodup)
    (hconvex : convexAppearance (pre ++ [(d, S)])) :
    updateOfacList (reconcileHistorical pre) S d = reconcileHistorical (pre ++ [(d, S)]) := by
  have hfc : fullHist (pre ++ [(d, S)]) = fullHist pre ++ tagCurrent S d := by
    rw [fullHist_concat]; rfl
  have hnodup2 : ((fullHist pre ++ tagCurrent S d).map key3).Nodup := by
    rw [← hfc]; exact hnodup
  have hnodupL : ((fullHist pre).map key3).Nodup := by
    rw [List.map_append] at hnodup2
    exact (List.nodup_append.mp hnodup2).1
  have hH : reconcileHistorical pre
      = (fullHist pre).map (reconRowHist (fullHist pre) (latestOf pre)) :=
    reconcileHistorical_eq_map hnodupL
  -- date facts
  have hpairs : ∀ x ∈ pre.map Prod.fst, stepOk x d := by
    have hpw : List.Pairwise stepOk ((pre ++ [(d, S)]).map Prod.fst) :=
      List.chain'_iff_pairwise.mp hchain
    rw [List.map_append] at hpw
    intro x hx
    exact (List.pairwise_append.mp hpw).2.2 x hx d (by simp)
  have hlt : ∀ x ∈ pre.map Prod.fst, Date.lt x d := fun x hx => (hpairs x hx).1
  have hmele : ∀ x ∈ pre.map Prod.fst, Date.le (Date.monthEnd1 x) d :=
    fun x hx => (hpairs x hx).2
  -- group preservation
  have hreps : ∀ e c,
      repsOf ((fullHist pre).map (reconRowHist (fullHist pre) (latestOf pre))
        ++ tagCurrent S d) e c = repsOf (fullHist pre ++ tagCurrent S d) e c := by
    intro e c
    rw [repsOf_append, repsOf_append,
      repsOf_map (fullHist pre) (reconRowHist (fullHist pre) (latestOf pre))
        (fun r => ⟨rfl, rfl, rfl⟩)]
  have hlast : ∀ e c,
      lastDate ((fullHist pre).map (reconRowHist (fullHist pre) (latestOf pre))
        ++ tagCurrent S d) e c = lastDate (fullHist pre ++ tagCurrent S d) e c := by
    intro e c
    unfold lastDate
    rw [hreps]
  -- min extension for keys present in the prefix
  have hfirstEq : ∀ e c, (∃ x ∈ fullHist pre, x.ent = e ∧ x.country = c) →
      firstSeen (fullHist pre) e c = firstSeen (fullHist pre ++ tagCurrent S d) e c := by
    intro e c hex
    rcases hex with ⟨x, hx, hxe, hxc⟩
    have hne : repsOf (fullHist pre) e c ≠ [] :=
      List.ne_nil_of_mem (mem_repsOf_iff.mpr ⟨x, hx, hxe, hxc, rfl⟩)
    unfold firstSeen
    rw [repsOf_append]
    symm
    apply minList_eq_of
    · exact List.mem_append.mpr (Or.inl (minList_mem hne))
    · intro y hy
      rcases List.mem_append.mp hy with h1 | h2
      · exact minList_le h1
      · rw [repsOf_tagCurrent_mem h2]
        exact Date.le_of_lt
          (hlt _ (repsOf_fullHist_dates (minList_mem hne)))
  -- keys present in the new snapshot have last date d
  have hlastd : ∀ e c, (∃ o ∈ S, o.ent = e ∧ o.country = c) →
      lastDate (fullHist pre ++ tagCurrent S d) e c = d := by
    intro e c hkS
    unfold lastDate
    rw [repsOf_append]
    apply maxList_eq_of
    · exact List.mem_append.mpr (Or.inr (repsOf_tagCurrent_mem_d hkS))
    · intro y hy
      rcases List.mem_append.mp hy with h1 | h2
      · exact Date.le_of_lt (hlt _ (repsOf_fullHist_dates h1))
      · rw [repsOf_tagCurrent_mem h2]
        exact Date.le_refl d
  -- rewrite both sides to plain maps
  have hkeyL : ((reconcileHistorical pre ++ tagCurrent S d).map key3).Nodup := by
    rw [hH, List.map_append,
      map_key3_map_pres _ _ (key3_reconRowHist (fullHist pre) (latestOf pre)),
      ← List.map_append]
    exact hnodup2
  have hLHS : updateOfacList (reconcileHistorical pre) S d
      = (reconcileHistorical pre ++ tagCurrent S d).map
          (reconRowInc (reconcileHistorical pre ++ tagCurrent S d)
            (reconcileHistorical pre) d) := by
    unfold updateOfacList
    rw [show fullRows (reconcileHistorical pre) S d
        = reconcileHistorical pre ++ tagCurrent S d from rfl]
    rw [dedupBy_eq_self hkeyL]
  have hRHS : reconcileHistorical (pre ++ [(d, S)])
      = (fullHist pre ++ tagCurrent S d).map
          (reconRowHist (fullHist pre ++ tagCurrent S d) d) := by
    rw [reconcileHistorical_eq_map hnodup, hfc]
    rw [show latestOf (pre ++ [(d, S)]) = d from latestOf_concat pre (d, S)]
  rw [hLHS, hRHS, hH, List.map_append, List.map_append, List.map_map]
  have hA : List.map
      (reconRowInc
          ((fullHist pre).map (reconRowHist (fullHist pre) (latestOf pre)) ++ tagCurrent S d)
          ((fullHist pre).map (reconRowHist (fullHist pre) (latestOf pre))) d
        ∘ reconRowHist (fullHist pre) (latestOf pre)) (fullHist pre)
      = List.map (reconRowHist (fullHist pre ++ tagCurrent S d) d) (fullHist pre) := by
    apply List.map_congr_left
    intro r hr
    show reconRowInc
        ((fullHist pre).map (reconRowHist (fullHist pre) (latestOf pre)) ++ tagCurrent S d)
        ((fullHist pre).map (reconRowHist (fullHist pre) (latestOf pre))) d
        (reconRowHist (fullHist pre) (latestOf pre) r)
      = reconRowHist (fullHist pre ++ tagCurrent S d) d r
    have hrrep : r.rep_date ∈ repsOf (fullHist pre) r.ent r.country :=
      rep_mem_repsOf hr
    have hrne : repsOf (fullHist pre) r.ent r.country ≠ [] := List.ne_nil_of_mem hrrep
    have hlastpmem : lastDate (fullHist pre) r.ent r.country
        ∈ repsOf (fullHist pre) r.ent r.country := maxList_mem hrne
    refine rowExt rfl rfl rfl rfl ?_ ?_
    -- add_date
    · rw [reconRowInc_add_hist, reconRowHist_add]
      have hoa : originalAdd
          ((fullHist pre).map (reconRowHist (fullHist pre) (latestOf pre))) r.ent r.country
          = some (firstSeen (fullHist pre) r.ent r.country) :=
        originalAdd_map_hist (fullHist pre) (latestOf pre) r.ent r.country ⟨r, hr, rfl, rfl⟩
      rw [hoa]
      exact hfirstEq r.ent r.country ⟨r, hr, rfl, rfl⟩
    -- removal_date
    · rw [reconRowInc_removal_hist,
        reconRowHist_removal (fullHist pre ++ tagCurrent S d) d r,
        hlast r.ent r.country]
      by_cases hkS : ∃ o ∈ S, o.ent = r.ent ∧ o.country = r.country
      · rw [hlastd r.ent r.country hkS]
        rw [if_neg (fun hcon => Date.lt_irrefl d hcon.1), if_neg (Date.lt_irrefl d)]
        -- remaining: (reconRowHist fp latest r).removal_date = none
        rw [reconRowHist_removal (fullHist pre) (latestOf pre) r]
        -- derive that the key is in the final prefix snapshot
        rcases mem_fullHist hr with ⟨sp, hsp, hrsp⟩
        rcases List.mem_iff_getElem.mp hsp with ⟨i0, hi0, hgi0⟩
        have hpne : pre ≠ [] := by
          intro hcon
          rw [hcon] at hsp
          exact List.not_mem_nil sp hsp
        have hplen : 0 < pre.length := List.length_pos.mpr hpne
        rcases mem_tagCurrent_obs hrsp with ⟨o, ho, hoe, hoc⟩
        have hsnlen : (pre ++ [(d, S)]).length = pre.length + 1 := by simp
        have hcv := hconvex i0 (by rw [hsnlen]; omega)
          (pre.length - 1) (by rw [hsnlen]; omega)
          pre.length (by rw [hsnlen]; omega)
          (by omega) (by omega)
        unfold convexAt at hcv
        have hgetDi : (pre ++ [(d, S)]).getD i0 snapDflt = sp := by
          rw [List.getD_eq_getElem _ _ (by rw [hsnlen]; omega)]
          rw [List.getElem_append_left hi0]
          exact hgi0
        have hgetDl : (pre ++ [(d, S)]).getD pre.length snapDflt = (d, S) := by
          rw [List.getD_eq_getElem _ _ (by rw [hsnlen]; omega)]
          rw [List.getElem_append_right (Nat.le_refl pre.length)]
          simp
        have hgetDj : (pre ++ [(d, S)]).getD (pre.length - 1) snapDflt
            = pre[pre.length - 1] := by
          rw [List.getD_eq_getElem _ _ (by rw [hsnlen]; omega)]
          rw [List.getElem_append_left (by omega)]
        have hkfin : keyInSnap r.ent r.country pre[pre.length - 1] := by
          have h1 : keyInSnap o.ent o.country ((pre ++ [(d, S)]).getD pre.length snapDflt) := by
            rw [hgetDl]
            rcases hkS with ⟨o2, ho2, ho2e, ho2c⟩
            exact ⟨o2, ho2, by rw [ho2e, hoe], by rw [ho2c, hoc]⟩
          have h2 := hcv o (by rw [hgetDi]; exact ho) h1
          rw [hgetDj] at h2
          rw [hoe, hoc] at h2
          exact h2
        have hlatestmem : latestOf pre ∈ repsOf (fullHist pre) r.ent r.country := by
          rcases hkfin with ⟨o2, ho2, ho2e, ho2c⟩
          apply mem_repsOf_iff.mpr
          refine ⟨⟨o2.ent, o2.country, o2.payload, (pre[pre.length - 1]).1,
            (pre[pre.length - 1]).1, none⟩, ?_, ho2e, ho2c, ?_⟩
          · exact mem_fullHist_of_mem_snap (List.getElem_mem _)
              (List.mem_map_of_mem _ ho2)
          · rw [latestOf_eq_getLast pre hpne, List.getLast_eq_getElem]
        have hnl : ¬ Date.lt (lastDate (fullHist pre) r.ent r.country) (latestOf pre) :=
          Date.not_lt.mpr (le_maxList hlatestmem)
        rw [if_neg hnl]
      · have hknil : ∀ o ∈ S, ¬(o.ent = r.ent ∧ o.country = r.country) := by
          intro o ho hcon
          exact hkS ⟨o, ho, hcon⟩
        have hcurnil : repsOf (tagCurrent S d) r.ent r.country = [] :=
          repsOf_tagCurrent_nil hknil
        have hlastEq2 : lastDate (fullHist pre ++ tagCurrent S d) r.ent r.country
            = lastDate (fullHist pre) r.ent r.country := by
          unfold lastDate
          rw [repsOf_append, hcurnil, List.append_nil]
        rw [hlastEq2]
        have hlastlt : Date.lt (lastDate (fullHist pre) r.ent r.country) d :=
          hlt _ (repsOf_fullHist_dates hlastpmem)
        rw [if_pos hlastlt]
        by_cases hplt : Date.lt (lastDate (fullHist pre) r.ent r.country) (latestOf pre)
        · have hxrem : (reconRowHist (fullHist pre) (latestOf pre) r).removal_date
              = some (Date.monthEnd1 (lastDate (fullHist pre) r.ent r.country)) := by
            rw [reconRowHist_removal (fullHist pre) (latestOf pre) r, if_pos hplt]
          rw [if_neg (by
            rintro ⟨-, hno⟩
            rw [hxrem] at hno
            exact Option.noConfusion hno), hxrem]
        · have hxrem : (reconRowHist (fullHist pre) (latestOf pre) r).removal_date = none := by
            rw [reconRowHist_removal (fullHist pre) (latestOf pre) r, if_neg hplt]
          rw [if_pos ⟨hlastlt, hxrem⟩]
          apply congrArg
          unfold clampMonthEnd
          rw [if_neg (Date.not_lt.mpr (hmele _ (repsOf_fullHist_dates hlastpmem)))]
  have hB : List.map
      (reconRowInc
        ((fullHist pre).map (reconRowHist (fullHist pre) (latestOf pre)) ++ tagCurrent S d)
        ((fullHist pre).map (reconRowHist (fullHist pre) (latestOf pre))) d) (tagCurrent S d)
      = List.map (reconRowHist (fullHist pre ++ tagCurrent S d) d) (tagCurrent S d) := by
    apply List.map_congr_left
    intro r hr
    rcases mem_tagCurrent hr with ⟨hrrep, hradd, hrrem⟩
    have hkS : ∃ o ∈ S, o.ent = r.ent ∧ o.country = r.country := by
      rcases mem_tagCurrent_obs hr with ⟨o, ho, hoe, hoc⟩
      exact ⟨o, ho, hoe, hoc⟩
    refine rowExt rfl rfl rfl rfl ?_ ?_
    -- add_date
    · rw [reconRowInc_add, reconRowHist_add]
      by_cases hexp : ∃ x ∈ fullHist pre, x.ent = r.ent ∧ x.country = r.country
      · have hoa : originalAdd
            ((fullHist pre).map (reconRowHist (fullHist pre) (latestOf pre))) r.ent r.country
            = some (firstSeen (fullHist pre) r.ent r.country) :=
          originalAdd_map_hist (fullHist pre) (latestOf pre) r.ent r.country hexp
        rw [hoa]
        exact hfirstEq r.ent r.country hexp
      · have hoa : originalAdd
            ((fullHist pre).map (reconRowHist (fullHist pre) (latestOf pre))) r.ent r.country
            = none := by
          apply originalAdd_eq_none_iff.mpr
          intro x hx
          rcases List.mem_map.mp hx with ⟨y, hy, hyx⟩
          rintro ⟨h1, h2⟩
          rw [← hyx] at h1 h2
          exact hexp ⟨y, hy, h1, h2⟩
        rw [hoa, hradd]
        have hfnil : repsOf (fullHist pre) r.ent r.country = [] := by
          unfold repsOf
          rw [List.map_eq_nil_iff, List.filter_eq_nil_iff]
          intro x hx
          rw [decide_eq_true_eq]
          rintro ⟨h1, h2⟩
          exact hexp ⟨x, hx, h1, h2⟩
        unfold firstSeen
        rw [repsOf_append, hfnil, List.nil_append]
        symm
        apply minList_eq_of
        · exact repsOf_tagCurrent_mem_d hkS
        · intro y hy
          rw [repsOf_tagCurrent_mem hy]
          exact Date.le_refl d
    -- removal_date
    · rw [reconRowInc_removal,
        reconRowHist_removal (fullHist pre ++ tagCurrent S d) d r,
        hlast r.ent r.country, hlastd r.ent r.country hkS]
      rw [if_neg (fun hcon => Date.lt_irrefl d hcon.1), if_neg (Date.lt_irrefl d), hrrem]
  rw [hA, hB]

theorem chain_of_concat {P : Type} {pre : List (Date × List (Obs P))}
    {s : Date × List (Obs P)}
    (h : List.Chain' stepOk ((pre ++ [s]).map Prod.fst)) :
    List.Chain' stepOk (pre.map Prod.fst) := by
  rw [List.map_append] at h
  exact (List.chain'_append.mp h).1

theorem nodup_of_concat {P : Type} [DecidableEq P] {pre : List (Date × List (Obs P))}
    {s : Date × List (Obs P)}
    (h : ((fullHist (pre ++ [s])).map key3).Nodup) :
    ((fullHist pre).map key3).Nodup := by
  rw [fullHist_concat, List.map_append] at h
  exact (List.nodup_append.mp h).1

theorem convex_of_concat {P : Type} {pre : List (Date × List (Obs P))}
    {s : Date × List (Obs P)} (h : convexAppearance (pre ++ [s])) :
    convexAppearance pre := by
  intro i hi j hj l hl hij hjl
  have hlen : (pre ++ [s]).length = pre.length + 1 := by simp
  have hg : ∀ m, m < pre.length → (pre ++ [s]).getD m snapDflt = pre.getD m snapDflt := by
    intro m hm
    rw [List.getD_eq_getElem _ _ (by rw [hlen]; omega), List.getD_eq_getElem _ _ hm]
    exact List.getElem_append_left hm
  have hcv := h i (by rw [hlen]; omega) j (by rw [hlen]; omega) l (by rw [hlen]; omega) hij hjl
  unfold convexAt at hcv ⊢
  rw [hg i hi, hg j hj, hg l hl] at hcv
  exact hcv

/-- Claim C4 as amended: when the snapshot dates strictly ascend with each
month-end-after no later than the next date (no clamping), no distinct
record recurs across the whole sequence, and key appearance is convex (no
reappearance after an absence), one historical reconciliation of S1..Sn
equals feeding S1..Sn one at a time to the incremental reconciler seeded
from an empty tracked list — row-for-row, hence with identical lifecycle
records. -/
theorem c4_reconciler_equivalence_amended {P : Type} [DecidableEq P]
    (snaps : List (Date × List (Obs P)))
    (hchain : List.Chain' stepOk (snaps.map Prod.fst))
    (hnodup : ((fullHist snaps).map key3).Nodup)
    (hconvex : convexAppearance snaps) :
    iterIncremental snaps = reconcileHistorical snaps := by
  revert hchain hnodup hconvex
  induction snaps using List.reverseRecOn with
  | nil =>
      intro _ _ _
      rfl
  | append_singleton pre s ih =>
      intro hchain hnodup hconvex
      obtain ⟨d, S⟩ := s
      rw [iterIncremental_concat]
      rw [ih (chain_of_concat hchain) (nodup_of_concat hnodup) (convex_of_concat hconvex)]
      exact update_step pre d S hchain hnodup hconvex

/-- Counterexample to claim C4 as stated: entity 1 appears with an
unchanged payload in the first two snapshots and is gone from the third.
The incremental pipeline only remembers the first sighting (2021-01-31), so
it removes the key at 2021-02-28, while the historical reconciler uses the
true last sighting (2021-02-28) and removes it at 2021-03-31: the lifecycle
sets differ. -/
theorem c4_reconciler_equivalence_counterexample :
    ((1, cX, (⟨2021, 1, 31⟩ : Date), some (⟨2021, 2, 28⟩ : Date))
        ∈ lifecycles (iterIncremental snapsC4x))
    ∧ ((1, cX, (⟨2021, 1, 31⟩ : Date), some (⟨2021, 2, 28⟩ : Date))
        ∉ lifecycles (reconcileHistorical snapsC4x)) :=
  ⟨by decide, by decide⟩

/-- Witness for the amended C4 on a two-snapshot input satisfying all three
hypotheses. -/
theorem c4_reconciler_equivalence_amended_witness :
    List.Chain' stepOk (snapsC4w.map Prod.fst)
    ∧ ((fullHist snapsC4w).map key3).Nodup
    ∧ convexAppearance snapsC4w
    ∧ iterIncremental snapsC4w = reconcileHistorical snapsC4w :=
  ⟨List.chain'_cons.mpr ⟨by decide, List.chain'_singleton _⟩, by decide, by decide,
   c4_reconciler_equivalence_amended snapsC4w
     (List.chain'_cons.mpr ⟨by decide, List.chain'_singleton _⟩) (by decide) (by decide)⟩
